import Mathlib

/-!
PDF scraper (`main.go`): shallow embedding and verified properties.

The program fetches one page, extracts PDF links with a regular expression,
removes duplicates and downloads every link into a folder, skipping files that
are already there.

Modelling conventions.

* A Go `string` is a sequence of bytes: `GoString = List Nat`, every element a
  byte value. `str` gives the UTF-8 bytes of a literal.
* The two regular expressions of the program are matched on bytes. Every byte
  that the patterns name is ASCII and both character classes are negated, so a
  multi-byte rune (or an invalid byte, which Go's `regexp` reads as U+FFFD) is
  in the class exactly when each of its bytes is: matching on bytes yields the
  same matches as matching on runes.
* Go's `regexp` uses leftmost-first (backtracking priority) semantics; the
  matchers below follow the alternatives of each pattern in that priority.
* Everything the program cannot decide by itself (what the network answers,
  whether the operating system lets a file be created or written) is an explicit
  input, so every `if err != nil` branch of the source is reachable.
* The filesystem state is the set of regular files with their contents, keyed by
  path; a path that is a directory, or nothing, is what `fileExists` reports as
  "not a file". The directories `main` asks for and creates are kept apart.
* Library functions (`regexp`, `net/url`, `path`, `path/filepath` with `/` as
  separator, `strings`) are modelled from their documented behaviour and source.
-/

namespace Scraper

/-! ## Strings -/

/-- A Go string: its bytes. -/
abbrev GoString := List Nat

/-- UTF-8 encoding of one code point. -/
def utf8 (c : Char) : List Nat :=
  let n := c.toNat
  if n < 0x80 then [n]
  else if n < 0x800 then [0xC0 + n / 64, 0x80 + n % 64]
  else if n < 0x10000 then [0xE0 + n / 4096, 0x80 + n / 64 % 64, 0x80 + n % 64]
  else [0xF0 + n / 262144, 0x80 + n / 4096 % 64, 0x80 + n / 64 % 64, 0x80 + n % 64]

/-- The bytes of a string literal. -/
def str (s : String) : GoString := s.toList.flatMap utf8

/-- Consume the literal `p` at the front of the input: the rest of the input, or
`none` when the input does not start with `p`. -/
def lit : GoString → GoString → Option GoString
  | [], s => some s
  | _ :: _, [] => none
  | p :: ps, c :: cs => if p = c then lit ps cs else none

/-! ## `regexp`: the PDF-URL pattern `https?://[^\s"'<>]+?\.pdf(\?[^\s"'<>]*)?` -/

/-- Perl class `\s` of Go's `regexp/syntax`: `[\t\n\f\r ]`. -/
def isSpace (c : Nat) : Bool :=
  c == 9 || c == 10 || c == 12 || c == 13 || c == 32

/-- The class `[^\s"'<>]`. -/
def urlByte (c : Nat) : Bool :=
  !(isSpace c || c == 34 || c == 39 || c == 60 || c == 62)

/-- The text matched by the trailing group `(\?[^\s"'<>]*)?`: the group is
greedy, and so is the star inside it. -/
def queryPart : GoString → GoString
  | 63 :: t => 63 :: t.takeWhile urlByte
  | _ => []

/-- The text matched by `[^\s"'<>]+?\.pdf(\?…)?` after the first class byte has been taken:
the lazy `+?` first tries to go on with `\.pdf`, and takes one more class byte
only when that fails. -/
def lazyTail : GoString → Option GoString
  | [] => none
  | c :: t =>
    match lit (str ".pdf") (c :: t) with
    | some r => some (str ".pdf" ++ queryPart r)
    | none => if urlByte c then (lazyTail t).map (c :: ·) else none

/-- The text matched by `[^\s"'<>]+?\.pdf(\?…)?`: at least one class byte. -/
def pdfBody : GoString → Option GoString
  | [] => none
  | c :: t => if urlByte c then (lazyTail t).map (c :: ·) else none

/-- The text matched by `://[^\s"'<>]+?\.pdf(\?…)?`, with the scheme text that was
matched before it in front. -/
def restOfUrl (scheme r : GoString) : Option GoString :=
  (lit (str "://") r).bind fun r2 => (pdfBody r2).map (scheme ++ str "://" ++ ·)

/-- The match of the whole pattern anchored at the front of the input, if any.
`s?` is greedy: the branch that takes the `s` is tried first. -/
def matchHere (s : GoString) : Option GoString :=
  match lit (str "http") s with
  | none => none
  | some r =>
    let withS : Option GoString :=
      match r with
      | 115 :: r1 => restOfUrl (str "https") r1
      | _ => none
    match withS with
    | some m => some m
    | none => restOfUrl (str "http") r

/-- Scan of `FindAllString`: `skip` bytes of the input still belong to the
previous match; otherwise try a match here, and move one byte on when there is
none. -/
def findAllFrom : Nat → GoString → List GoString
  | _, [] => []
  | skip + 1, _ :: t => findAllFrom skip t
  | 0, c :: t =>
    match matchHere (c :: t) with
    | some m => m :: findAllFrom (m.length - 1) t
    | none => findAllFrom 0 t

/-- The call `pdfPattern.FindAllString(html, -1)`: the successive non-overlapping
leftmost matches. -/
def findAllString (html : GoString) : List GoString := findAllFrom 0 html

/-! ## Link extraction (`extractPDFLinks`, `removeDuplicateStrings`) -/

/-- State of the deduplication loops: the map `seen` (a missing key reads
`false`) and the slice built so far. -/
structure Dedup where
  seen : GoString → Bool
  unique : List GoString

/-- One iteration of `for _, link := range … { if !seen[link] { … } }`. -/
def Dedup.step (d : Dedup) (link : GoString) : Dedup :=
  if !d.seen link then
    { seen := fun k => if k = link then true else d.seen k
      unique := d.unique ++ [link] }
  else d

/-- The state before the loop: `make(map[string]bool)` and a nil slice. -/
def Dedup.init : Dedup := { seen := fun _ => false, unique := [] }

/-- Source function `extractPDFLinks`. -/
def extractPDFLinks (html : GoString) : List GoString :=
  let matches_ := findAllString html
  (matches_.foldl Dedup.step Dedup.init).unique

/-- Source function `removeDuplicateStrings`. -/
def removeDuplicateStrings (items : List GoString) : List GoString :=
  (items.foldl Dedup.step Dedup.init).unique

/-! ## `net/url`, `path`, `strings`: the library functions behind the filename

The definitions of this section follow Go's standard library (`net/url` as of
Go 1.22, `path.Base`, `strings.ToLower`) for the byte strings they receive. -/

/-- Go `ishex`. -/
def ishex (c : Nat) : Bool :=
  (48 ≤ c && c ≤ 57) || (97 ≤ c && c ≤ 102) || (65 ≤ c && c ≤ 70)

/-- Go `unhex`. -/
def unhex (c : Nat) : Nat :=
  if 48 ≤ c && c ≤ 57 then c - 48
  else if 97 ≤ c && c ≤ 102 then c - 97 + 10
  else if 65 ≤ c && c ≤ 70 then c - 65 + 10
  else 0

/-- The `encoding` modes of `net/url` that `Parse` and `QueryUnescape` use. -/
inductive Encoding
  | path | host | zone | userPassword | queryComponent | fragment
  deriving DecidableEq, Repr

/-- ASCII letters and digits. -/
def isAlnum (c : Nat) : Bool :=
  (97 ≤ c && c ≤ 122) || (65 ≤ c && c ≤ 90) || (48 ≤ c && c ≤ 57)

/-- Go `shouldEscape(c, encodeHost)`: everything but letters, digits,
`!$&'()*+,;=:[]<>"` and `-_.~`. -/
def shouldEscapeHost (c : Nat) : Bool :=
  !(isAlnum c || (str "!$&'()*+,;=:[]<>\"").contains c || (str "-_.~").contains c)

/-- Go `unescape(s, mode)`: `none` for an `EscapeError` or `InvalidHostError`. Go
validates the whole string and then decodes it; here both happen in one pass. -/
def unescape (mode : Encoding) : GoString → Option GoString
  | [] => some []
  | 37 :: a :: b :: t =>
    if !(ishex a && ishex b) then none
    else if mode = .host && unhex a < 8 && !(a = 50 && b = 53) then none
    else if mode = .zone && !(a = 50 && b = 53) && unhex a * 16 + unhex b ≠ 32
        && shouldEscapeHost (unhex a * 16 + unhex b) then none
    else (unescape mode t).map ((unhex a * 16 + unhex b) :: ·)
  | 37 :: _ => none
  | 43 :: t => (unescape mode t).map ((if mode = .queryComponent then 32 else 43) :: ·)
  | c :: t =>
    if (mode = .host || mode = .zone) && c < 128 && shouldEscapeHost c then none
    else (unescape mode t).map (c :: ·)

/-- Go `url.QueryUnescape`. -/
def queryUnescape (s : GoString) : Option GoString := unescape .queryComponent s

/-- Go `strings.Cut(s, sep)` for a one-byte separator: before, after, found. -/
def cut (sep : Nat) : GoString → GoString × GoString × Bool
  | [] => ([], [], false)
  | c :: t =>
    if c = sep then ([], t, true)
    else let r := cut sep t; (c :: r.1, r.2.1, r.2.2)

/-- Go `stringContainsCTLByte`. -/
def stringContainsCTLByte (s : GoString) : Bool := s.any fun b => b < 32 || b == 127

/-- Loop of Go `getScheme`, at index `i` with the input from there on:
`none` for "missing protocol scheme", else scheme and rest. -/
def getSchemeFrom (rawURL : GoString) : Nat → GoString → Option (GoString × GoString)
  | _, [] => some ([], rawURL)
  | i, c :: t =>
    if (97 ≤ c && c ≤ 122) || (65 ≤ c && c ≤ 90) then getSchemeFrom rawURL (i + 1) t
    else if (48 ≤ c && c ≤ 57) || c == 43 || c == 45 || c == 46 then
      if i = 0 then some ([], rawURL) else getSchemeFrom rawURL (i + 1) t
    else if c == 58 then
      if i = 0 then none else some (rawURL.take i, t)
    else some ([], rawURL)

/-- Go `getScheme`. -/
def getScheme (rawURL : GoString) : Option (GoString × GoString) :=
  getSchemeFrom rawURL 0 rawURL

/-- Go `validOptionalPort`. -/
def validOptionalPort : GoString → Bool
  | [] => true
  | c :: t => c == 58 && t.all fun b => 48 ≤ b && b ≤ 57

/-- Go `validUserinfo`. -/
def validUserinfo (s : GoString) : Bool :=
  s.all fun r => isAlnum r || (str "-._:~!$&'()*+,;=%@").contains r

/-- Text after the last occurrence of `sep`, with `sep` itself when `keep` is set
(`none` when `sep` does not occur): `s[i:]` or `s[i+1:]` for `i = LastIndex`. -/
def afterLast (sep : Nat) (keep : Bool) (s : GoString) : Option GoString :=
  if s.contains sep then
    let tail := (s.reverse.takeWhile (· != sep)).reverse
    some (if keep then sep :: tail else tail)
  else none

/-- Text before the last occurrence of `sep`: `s[:i]` for `i = LastIndex`. -/
def beforeLast (sep : Nat) (s : GoString) : GoString :=
  ((s.reverse.dropWhile (· != sep)).drop 1).reverse

/-- Index of the first occurrence of the byte string `sub` in `s`
(`strings.Index`), as the text before it and the text from it on. -/
def splitAtSub (sub : GoString) : GoString → Option (GoString × GoString)
  | [] => if sub = [] then some ([], []) else none
  | c :: t =>
    if (lit sub (c :: t)).isSome then some ([], c :: t)
    else (splitAtSub sub t).map fun r => (c :: r.1, r.2)

/-- Go `parseHost`: the unescaped host, `none` for an error. -/
def parseHost (host : GoString) : Option GoString :=
  let plain : Option GoString := unescape .host host
  match host with
  | 91 :: _ =>
    if !host.contains 93 then none
    else
      let upTo := beforeLast 93 host                      -- host[:i]
      let colonPort := (afterLast 93 false host).getD []  -- host[i+1:]
      if !validOptionalPort colonPort then none
      else
        match splitAtSub (str "%25") upTo with
        | some (h1, zoneOn) =>
          (unescape .host h1).bind fun a =>
          (unescape .zone zoneOn).bind fun b =>
          (unescape .host (93 :: colonPort)).map fun c => a ++ b ++ c
        | none => plain
  | _ =>
    match afterLast 58 true host with
    | some colonPort => if !validOptionalPort colonPort then none else plain
    | none => plain

/-- Go `parseAuthority`, as far as the host and errors go (the decoded user
name and password are not kept). -/
def parseAuthority (authority : GoString) : Option GoString :=
  match afterLast 64 false authority with
  | none => parseHost authority
  | some hostPart =>
    (parseHost hostPart).bind fun host =>
      let userinfo := beforeLast 64 authority
      if !validUserinfo userinfo then none
      else if !userinfo.contains 58 then
        (unescape .userPassword userinfo).map fun _ => host
      else
        let c := cut 58 userinfo
        (unescape .userPassword c.1).bind fun _ =>
        (unescape .userPassword c.2.1).map fun _ => host

/-- The fields of Go's `url.URL` that `Parse` fills from the text. -/
structure URL where
  Scheme : GoString := []
  Opaque : GoString := []
  Host : GoString := []
  Path : GoString := []
  RawQuery : GoString := []
  Fragment : GoString := []
  deriving DecidableEq, Repr

/-- ASCII lower case of a byte. -/
def lowerByte (c : Nat) : Nat := if 65 ≤ c && c ≤ 90 then c + 32 else c

/-- Go `parse(rawURL, viaRequest = false)`. -/
def parseNoFragment (rawURL : GoString) : Option URL :=
  if stringContainsCTLByte rawURL then none
  else if rawURL = str "*" then some { Path := str "*" }
  else
    match getScheme rawURL with
    | none => none
    | some (scheme0, rest0) =>
      let scheme := scheme0.map lowerByte
      let split : GoString × GoString :=
        if rest0.getLast? = some 63 && rest0.count 63 = 1 then (rest0.dropLast, [])
        else let c := cut 63 rest0; (c.1, c.2.1)
      let rest := split.1
      let rawQuery := split.2
      if rest.head? ≠ some 47 && scheme ≠ [] then
        some { Scheme := scheme, Opaque := rest, RawQuery := rawQuery }
      else if rest.head? ≠ some 47 && (cut 47 rest).1.contains 58 then none
      else
        let hasAuthority : Bool :=
          (scheme ≠ [] || (lit (str "///") rest).isNone) && (lit (str "//") rest).isSome
        let parts : Option (GoString × GoString) :=
          if hasAuthority then
            let authority := rest.drop 2
            let a := authority.takeWhile (· != 47)
            let p := authority.dropWhile (· != 47)
            (parseAuthority a).map fun host => (host, p)
          else some ([], rest)
        parts.bind fun hp =>
          (unescape .path hp.2).map fun path =>
            { Scheme := scheme, Host := hp.1, Path := path, RawQuery := rawQuery }

/-- Go `url.Parse`: cut off the fragment, parse the rest, then set the
fragment (which fails on a malformed escape). -/
def urlParse (rawURL : GoString) : Option URL :=
  let c := cut 35 rawURL
  match parseNoFragment c.1 with
  | none => none
  | some u =>
    if c.2.1 = [] then some u
    else (unescape .fragment c.2.1).map fun f => { u with Fragment := f }

/-- Go `path.Base`: `"."` for the empty path; otherwise the text after the last
slash once trailing slashes are dropped, and `"/"` when nothing is left. -/
def pathBase (path : GoString) : GoString :=
  if path = [] then str "."
  else
    let stripped := (path.reverse.dropWhile (· == 47)).reverse
    let last := (stripped.reverse.takeWhile (· != 47)).reverse
    if last = [] then str "/" else last

/-- Go `strings.ToLower`, up to non-ASCII output: ASCII letters are lowered, and
so are the two non-ASCII runes whose lower case is ASCII, U+0130 (bytes C4 B0,
to `i`) and U+212A (bytes E2 84 AA, to `k`). Every other rune is non-ASCII
before and after `unicode.ToLower`; its bytes are left in place, which the
filename pattern cannot tell apart. -/
def toLower : GoString → GoString
  | [] => []
  | 0xC4 :: 0xB0 :: t => 105 :: toLower t
  | 0xE2 :: 0x84 :: 0xAA :: t => 107 :: toLower t
  | c :: t => lowerByte c :: toLower t

/-! ## Filename derivation (`convertURLToSafeFilename`) -/

/-- The class `[a-z0-9._-]`, whose complement the filename pattern matches. -/
def safeByte (c : Nat) : Bool :=
  (97 ≤ c && c ≤ 122) || (48 ≤ c && c ≤ 57) || c == 46 || c == 95 || c == 45

/-- Scan of `ReplaceAllString` for `[^a-z0-9._-]+` with replacement `"_"`; `inRun`
tells that the byte before belongs to the current (greedy) match, whose
replacement has been written already. -/
def replaceFrom : Bool → GoString → GoString
  | _, [] => []
  | inRun, c :: t =>
    if safeByte c then c :: replaceFrom false t
    else if inRun then replaceFrom true t
    else 95 :: replaceFrom true t

/-- The call `re.ReplaceAllString(decodedName, "_")`. -/
def replaceAllString (s : GoString) : GoString := replaceFrom false s

/-- Source function `convertURLToSafeFilename`. -/
def convertURLToSafeFilename (rawURL : GoString) : GoString :=
  match urlParse rawURL with
  | none => []
  | some parsed =>
    let baseName := pathBase parsed.Path
    let decodedName :=
      match queryUnescape baseName with
      | some d => d
      | none => baseName
    let decodedName := toLower decodedName
    let safeName := replaceAllString decodedName
    safeName

/-! ## `path/filepath` on Unix -/

/-- The elements of a path: the texts between its slashes. -/
def splitSlash : GoString → List GoString
  | [] => [[]]
  | c :: t =>
    if c = 47 then [] :: splitSlash t
    else
      match splitSlash t with
      | e :: es => (c :: e) :: es
      | [] => [[c]]

/-- Loop of Go `filepath.Clean` over the elements of the path; `out` holds the
elements written so far, the last one first. Empty elements and `.` are
dropped; `..` removes the last real element, is kept in front of a path that
is not rooted, and is dropped at the root. -/
def cleanElems (rooted : Bool) : List GoString → List GoString → List GoString
  | [], out => out
  | e :: es, out =>
    if e = [] || e = str "." then cleanElems rooted es out
    else if e = str ".." then
      match out with
      | top :: below =>
        if top = str ".." then cleanElems rooted es (e :: out)
        else cleanElems rooted es below
      | [] => if rooted then cleanElems rooted es [] else cleanElems rooted es [e]
    else cleanElems rooted es (e :: out)

/-- Go `filepath.Clean`, separator `/`, no volume name. -/
def filepathClean (path : GoString) : GoString :=
  if path = [] then str "."
  else
    let rooted := path.head? == some 47
    let joined := (str "/").intercalate (cleanElems rooted (splitSlash path) []).reverse
    if rooted then 47 :: joined
    else if joined = [] then str "." else joined

/-- Go `filepath.Join` of two elements: the elements from the first non-empty
one on, joined by `/` and cleaned; `""` when both are empty. -/
def filepathJoin (a b : GoString) : GoString :=
  if a ≠ [] then filepathClean (a ++ 47 :: b)
  else if b ≠ [] then filepathClean b
  else []

/-- Go `strings.Contains(s, sub)`. -/
def stringsContains (s sub : GoString) : Bool := (splitAtSub sub s).isSome

/-! ## Filesystem, network and log -/

/-- The regular files: path to content. -/
abbrev FS := GoString → Option GoString

/-- The filesystem with the file at `path` holding `data`. -/
def FS.write (fs : FS) (path data : GoString) : FS :=
  fun q => if q = path then some data else fs q

/-- The filesystem with no file. -/
def FS.empty : FS := fun _ => none

/-- Source function `fileExists`: `os.Stat` succeeds and the entry is not a
directory. -/
def fileExists (fs : FS) (filePath : GoString) : Bool := (fs filePath).isSome

/-- What the program does that can be observed from outside: the requests it
sends and the lines it prints. -/
inductive Event
  | httpGet (url : GoString)
  | alreadyDownloaded (outputPath : GoString)
  | failedToDownload (url : GoString)
  | badResponse (url : GoString) (status : Int)
  | invalidContentType (url contentType : GoString)
  | errorReading (url : GoString)
  | emptyPDF (url : GoString)
  | errorCreating (url : GoString)
  | errorWriting (url : GoString)
  | downloaded (bytesWritten : Nat) (url outputPath : GoString)
  deriving DecidableEq, Repr

/-- State of a run: the files and the events so far, oldest first. -/
structure World where
  files : FS
  log : List Event

/-- Append an event to the log. -/
def World.emit (w : World) (e : Event) : World := { w with log := w.log ++ [e] }

/-- An HTTP response, as far as `downloadPDF` reads it. -/
structure Response where
  StatusCode : Int
  /-- Value of `response.Header.Get("Content-Type")`. -/
  ContentType : GoString
  /-- The bytes `io.Copy` moves into the buffer. -/
  body : GoString
  /-- Whether `io.Copy` reports an error. -/
  copyErr : Bool := false
  deriving DecidableEq, Repr

/-- Result of `client.Get`. -/
inductive Fetch
  | transportError
  | response (r : Response)
  deriving DecidableEq, Repr

/-- What the environment does during one call of `downloadPDF`. -/
structure Outcome where
  fetch : Fetch
  /-- Whether `os.Create` fails. -/
  createErr : Bool := false
  /-- Whether `WriteTo` fails, and after how many bytes. -/
  writeErr : Option Nat := none
  deriving DecidableEq, Repr

/-! ## The downloader (`downloadPDF`) and the loop of `main` -/

/-- The path `downloadPDF` writes to. -/
def outputPathOf (pdfURL destinationFolder : GoString) : GoString :=
  filepathJoin destinationFolder (toLower (convertURLToSafeFilename pdfURL))

/-- Source function `downloadPDF`. -/
def downloadPDF (pdfURL destinationFolder : GoString) (o : Outcome) (w : World) : World :=
  let safeFilename := toLower (convertURLToSafeFilename pdfURL)
  let outputPath := filepathJoin destinationFolder safeFilename
  if fileExists w.files outputPath then w.emit (.alreadyDownloaded outputPath)
  else
    let w := w.emit (.httpGet pdfURL)
    match o.fetch with
    | .transportError => w.emit (.failedToDownload pdfURL)
    | .response r =>
      if r.StatusCode ≠ 200 then w.emit (.badResponse pdfURL r.StatusCode)
      else if !stringsContains r.ContentType (str "application/pdf") then
        w.emit (.invalidContentType pdfURL r.ContentType)
      else if r.copyErr then w.emit (.errorReading pdfURL)
      else if r.body.length = 0 then w.emit (.emptyPDF pdfURL)
      else if o.createErr then w.emit (.errorCreating pdfURL)
      else
        match o.writeErr with
        | some k =>
          { files := w.files.write outputPath (r.body.take k)
            log := w.log ++ [.errorWriting pdfURL] }
        | none =>
          { files := w.files.write outputPath r.body
            log := w.log ++ [.downloaded r.body.length pdfURL outputPath] }

/-- The loop `for _, pdfURL := range pdfLinks { downloadPDF(pdfURL, pdfFolder) }`;
the call for the link at position `i` meets the outcome `env i`. -/
def downloadAll (pdfFolder : GoString) (env : Nat → Outcome) :
    Nat → List GoString → World → World
  | _, [], w => w
  | i, pdfURL :: rest, w =>
    downloadAll pdfFolder env (i + 1) rest (downloadPDF pdfURL pdfFolder (env i) w)

/-! ## Page acquisition and `main` -/

/-- Result of `http.Get` on the source page. -/
inductive PageFetch
  | transportError
  | response (body : GoString) (readErr : Bool)
  deriving DecidableEq, Repr

/-- Source function `downloadWebPage`: `nil` on a request or read error. -/
def downloadWebPage (f : PageFetch) : GoString :=
  match f with
  | .transportError => []
  | .response body readErr => if readErr then [] else body

/-- Source function `saveTextToFile`: append `content` and a newline, creating
the file when missing; `openErr` and `writeErr` are the failures of `os.OpenFile`
and `WriteString`. -/
def saveTextToFile (filePath content : GoString) (openErr : Bool) (writeErr : Option Nat)
    (fs : FS) : FS :=
  if openErr then fs
  else
    let old := (fs filePath).getD []
    let data := content ++ str "\n"
    match writeErr with
    | some k => fs.write filePath (old ++ data.take k)
    | none => fs.write filePath (old ++ data)

/-- Source function `readTextFile`: the data `os.ReadFile` returns, all of the
file or, on an error, what was read before it. -/
def readTextFile (filePath : GoString) (readErr : Option Nat) (fs : FS) : GoString :=
  match fs filePath with
  | none => []
  | some data =>
    match readErr with
    | some k => data.take k
    | none => data

/-- What the environment does during one run of `main`. -/
structure MainEnv where
  page : PageFetch
  saveOpenErr : Bool := false
  saveWriteErr : Option Nat := none
  readErr : Option Nat := none
  mkdirErr : Bool := false
  downloads : Nat → Outcome

/-- Name of the page cache in `main`. -/
def localHTMLFile : GoString := str "unileverprofessional.html"

/-- The folder of `main`. -/
def pdfFolder : GoString := str "PDFs/"

/-- Lines 31 to 39 of `main`: fetch and save the page unless the cache file
exists, then read the cache file. -/
def loadPage (env : MainEnv) (fs : FS) : FS × GoString :=
  let fs1 :=
    if !fileExists fs localHTMLFile then
      let webPageData := downloadWebPage env.page
      saveTextToFile localHTMLFile webPageData env.saveOpenErr env.saveWriteErr fs
    else fs
  (fs1, readTextFile localHTMLFile env.readErr fs1)

/-- The directories: which paths are directories. `downloadPDF` learns about
them only through the result of `os.Create`, which is part of its outcome. -/
abbrev Dirs := GoString → Bool

/-- Source function `directoryExists`. -/
def directoryExists (dirs : Dirs) (folderPath : GoString) : Bool := dirs folderPath

/-- Source function `createDirectory`: `os.Mkdir`, whose error is logged and
otherwise ignored. -/
def createDirectory (directoryPath : GoString) (mkdirErr : Bool) (dirs : Dirs) : Dirs :=
  if mkdirErr then dirs else fun q => q = directoryPath || dirs q

/-- Source function `main`. -/
def main (env : MainEnv) (dirs : Dirs) (w : World) : World × Dirs :=
  let page := loadPage env w.files
  let htmlContent := page.2
  let pdfLinks := extractPDFLinks htmlContent
  let pdfLinks := removeDuplicateStrings pdfLinks
  let dirs1 :=
    if !directoryExists dirs pdfFolder then createDirectory pdfFolder env.mkdirErr dirs
    else dirs
  (downloadAll pdfFolder env.downloads 0 pdfLinks { w with files := page.1 }, dirs1)

/-! ## Specification-side definitions -/

/-- The language of the PDF-URL pattern: `http`, an optional `s`, `://`, a
non-empty run of class bytes, `.pdf`, and optionally `?` with a run of class
bytes. -/
def PdfUrl (m : GoString) : Prop :=
  ∃ scheme body q : GoString,
    m = scheme ++ str "://" ++ body ++ str ".pdf" ++ q ∧
    (scheme = str "http" ∨ scheme = str "https") ∧
    body ≠ [] ∧ (∀ c ∈ body, urlByte c = true) ∧
    (q = [] ∨ ∃ r, q = 63 :: r ∧ ∀ c ∈ r, urlByte c = true)

/-- The shape of the text the trailing group `(\?[^\s"'<>]*)?` can match: nothing, or
`?` and a run of class bytes. -/
def IsQuery (q : GoString) : Prop :=
  q = [] ∨ ∃ r, q = 63 :: r ∧ ∀ c ∈ r, urlByte c = true

/-- The match a leftmost-first search reports at the front of `t`: a word of the
language that starts `t`, with the shortest body among the words that start
`t` (the `+?` is lazy) and, for that body, the longest query (the group and
its star are greedy). -/
def IsFrontMatch (t m : GoString) : Prop :=
  ∃ scheme body q : GoString,
    m = scheme ++ str "://" ++ body ++ str ".pdf" ++ q ∧
    (scheme = str "http" ∨ scheme = str "https") ∧
    body ≠ [] ∧ (∀ c ∈ body, urlByte c = true) ∧ IsQuery q ∧ m <+: t ∧
    ∀ scheme1 body1 q1 : GoString,
      (scheme1 = str "http" ∨ scheme1 = str "https") →
      body1 ≠ [] → (∀ c ∈ body1, urlByte c = true) → IsQuery q1 →
      scheme1 ++ str "://" ++ body1 ++ str ".pdf" ++ q1 <+: t →
      body.length ≤ body1.length ∧ (body1.length = body.length → q1.length ≤ q.length)

/-- The successive non-overlapping leftmost matches of the pattern in a text: no
word of the language starts inside a gap, each match is the one reported at
its position, and the search goes on behind it. -/
inductive LeftmostMatches : GoString → List GoString → Prop
  | done (s : GoString) : (¬ ∃ w, PdfUrl w ∧ w <:+: s) → LeftmostMatches s []
  | step (gap m rest : GoString) (ms : List GoString) :
      (∀ k, k < gap.length → ¬ ∃ w, PdfUrl w ∧ w <+: (gap ++ (m ++ rest)).drop k) →
      IsFrontMatch (m ++ rest) m → LeftmostMatches rest ms →
      LeftmostMatches (gap ++ (m ++ rest)) (m :: ms)

/-- A list with every entry reduced to its first occurrence. -/
def firstOccurrences : List GoString → List GoString
  | [] => []
  | a :: l => a :: (firstOccurrences l).filter (· ≠ a)

/-- The final segment of a path: the text after its last slash. -/
def finalSegment (path : GoString) : GoString :=
  (path.reverse.takeWhile (· != 47)).reverse

/-- Percent-decoding: every `%XX` becomes the byte it names, every other byte
stands for itself; `none` when a `%` is not followed by two hex digits. -/
def percentDecode : GoString → Option GoString
  | [] => some []
  | 37 :: a :: b :: t =>
    if ishex a && ishex b then (percentDecode t).map ((unhex a * 16 + unhex b) :: ·) else none
  | 37 :: _ => none
  | c :: t => (percentDecode t).map (c :: ·)

/-- A literal `+` read as a space, as `url.QueryUnescape` does. -/
def plusToSpace (c : Nat) : Nat := if c = 43 then 32 else c

/-- A path without its trailing slashes. -/
def dropTrailingSlashes (path : GoString) : GoString :=
  (path.reverse.dropWhile (· == 47)).reverse

/-- Every maximal run of bytes outside `[a-z0-9._-]` replaced by one `_`, every
other byte kept. -/
def collapseRuns : GoString → GoString
  | [] => []
  | c :: t =>
    if safeByte c then c :: collapseRuns t
    else 95 :: collapseRuns (t.dropWhile fun x => !safeByte x)
termination_by s => s.length
decreasing_by
  all_goals simp_wf
  · exact Nat.lt_succ_of_le (List.dropWhile_sublist _).length_le

/-- The filename the specification describes for a parsed path: final segment,
percent-decoded (the raw segment when decoding fails), lowercased, runs of
unsafe bytes collapsed. -/
def specFilename (path : GoString) : GoString :=
  let segment := finalSegment path
  collapseRuns (toLower ((percentDecode segment).getD segment))

/-- The body of a valid download: status 200, a content type that contains
`application/pdf`, a body read without error and not empty, and a file that
is created and written without error. `none` for every other outcome. -/
def Outcome.validBody (o : Outcome) : Option GoString :=
  match o.fetch with
  | .transportError => none
  | .response r =>
    if r.StatusCode = 200 ∧ stringsContains r.ContentType (str "application/pdf") = true
        ∧ r.copyErr = false ∧ r.body ≠ [] ∧ o.createErr = false ∧ o.writeErr = none
    then some r.body else none

/-- The call a log entry opens, named by its destination path: a skip names the
path itself, a request the path derived from its URL; every other entry
continues a call. -/
def Event.attempt (folder : GoString) : Event → Option GoString
  | .alreadyDownloaded outputPath => some outputPath
  | .httpGet url => some (outputPathOf url folder)
  | _ => none

/-- Every file of `a` is a file of `b` with the same content. -/
def FS.Extends (a b : FS) : Prop := ∀ path data, a path = some data → b path = some data

/-! ## Example data -/

/-- The page of the end-to-end scenario. -/
def scenarioPage : GoString :=
  str "<a href='https://ex.com/a.pdf'>x</a> https://ex.com/a.pdf"

/-- The link of the end-to-end scenario. -/
def scenarioURL : GoString := str "https://ex.com/a.pdf"

/-- A response with status 200, content type `application/pdf` and the given
body, with no failure of the filesystem. -/
def pdfResponse (body : GoString) : Outcome :=
  { fetch := .response { StatusCode := 200, ContentType := str "application/pdf", body := body } }

/-- A response with the given status and an HTML body. -/
def htmlResponse (status : Int) : Outcome :=
  { fetch := .response
      { StatusCode := status, ContentType := str "text/html", body := str "<html></html>" } }

/-- Every call meets a 404 page. -/
def htmlResponse_404 : Nat → Outcome := fun _ => htmlResponse 404

/-- Three outcomes in a row: no connection, a valid PDF, a 404 page. -/
def mixedOutcomes : Nat → Outcome
  | 0 => { fetch := .transportError }
  | 1 => pdfResponse (str "%PDF-1.7")
  | _ => htmlResponse 404

/-! ## Lemmas: deduplication -/

theorem mem_firstOccurrences (l : List GoString) (x : GoString) :
    x ∈ firstOccurrences l ↔ x ∈ l := by
  induction l with
  | nil => simp [firstOccurrences]
  | cons a l ih =>
    simp only [firstOccurrences, List.mem_cons, List.mem_filter, ih]
    constructor
    · rintro (h | ⟨h, _⟩)
      · exact Or.inl h
      · exact Or.inr h
    · intro h
      by_cases hx : x = a
      · exact Or.inl hx
      · rcases h with h | h
        · exact Or.inl h
        · exact Or.inr ⟨h, by simpa using hx⟩

theorem nodup_firstOccurrences (l : List GoString) : (firstOccurrences l).Nodup := by
  induction l with
  | nil => simp [firstOccurrences]
  | cons a l ih =>
    simp only [firstOccurrences, List.nodup_cons, List.mem_filter]
    exact ⟨fun h => by simpa using h.2, ih.filter _⟩

theorem firstOccurrences_of_nodup (l : List GoString) (h : l.Nodup) :
    firstOccurrences l = l := by
  induction l with
  | nil => rfl
  | cons a l ih =>
    rw [List.nodup_cons] at h
    simp only [firstOccurrences, ih h.2]
    congr 1
    rw [List.filter_eq_self]
    intro x hx
    have : x ≠ a := fun e => h.1 (e ▸ hx)
    simpa using this

theorem firstOccurrences_order (l : List GoString) :
    (firstOccurrences l).Pairwise (fun a b => l.indexOf a < l.indexOf b) := by
  induction l with
  | nil => simp [firstOccurrences]
  | cons a l ih =>
    simp only [firstOccurrences, List.pairwise_cons]
    refine ⟨?_, ?_⟩
    · intro b hb
      have hba : b ≠ a := by simpa using (List.mem_filter.mp hb).2
      have hab : (a == b) = false := by simpa using Ne.symm hba
      simp [List.indexOf_cons, hab]
    · have h1 : ((firstOccurrences l).filter (· ≠ a)).Pairwise
          (fun x y => l.indexOf x < l.indexOf y) := ih.filter _
      refine h1.imp_of_mem ?_
      intro x y hx hy hxy
      have hxa : x ≠ a := by simpa using (List.mem_filter.mp hx).2
      have hya : y ≠ a := by simpa using (List.mem_filter.mp hy).2
      have hax : (a == x) = false := by simpa using Ne.symm hxa
      have hay : (a == y) = false := by simpa using Ne.symm hya
      simpa [List.indexOf_cons, hax, hay] using hxy

theorem count_eq_one_of_nodup (l : List GoString) (m : GoString) (hnd : l.Nodup)
    (hm : m ∈ l) : l.count m = 1 := by
  induction l with
  | nil => simp at hm
  | cons x l ih =>
    rw [List.nodup_cons] at hnd
    rw [List.count_cons]
    by_cases hx : x = m
    · subst hx
      simp [List.count_eq_zero_of_not_mem hnd.1]
    · have hml : m ∈ l := by
        rcases List.mem_cons.1 hm with h | h
        · exact absurd h.symm hx
        · exact h
      simp [hx, ih hnd.2 hml]

/-- The loop computes the first occurrences: started in a state whose map holds
exactly the entries of its slice, it appends the first occurrences of the
entries not yet in the slice. -/
theorem foldl_step_unique (l : List GoString) (d : Dedup)
    (h : ∀ k, d.seen k = true ↔ k ∈ d.unique) :
    (l.foldl Dedup.step d).unique
      = d.unique ++ (firstOccurrences l).filter (fun x => decide (x ∉ d.unique)) := by
  induction l generalizing d with
  | nil => simp [firstOccurrences]
  | cons a l ih =>
    rw [List.foldl_cons]
    by_cases ha : a ∈ d.unique
    · have hs : d.seen a = true := (h a).2 ha
      have hstep : d.step a = d := by simp [Dedup.step, hs]
      rw [hstep, ih d h]
      congr 1
      simp only [firstOccurrences, List.filter_cons, ha, not_true_eq_false, decide_False,
        Bool.false_eq_true, if_false, List.filter_filter]
      apply List.filter_congr
      intro x _
      by_cases hx : x ∈ d.unique
      · simp [hx]
      · have : x ≠ a := fun e => hx (e ▸ ha)
        simp [hx, this]
    · have hs : d.seen a = false := by
        cases hsa : d.seen a with
        | false => rfl
        | true => exact absurd ((h a).1 hsa) ha
      have hstep : d.step a =
          { seen := fun k => if k = a then true else d.seen k, unique := d.unique ++ [a] } := by
        simp [Dedup.step, hs]
      have hinv : ∀ k, (d.step a).seen k = true ↔ k ∈ (d.step a).unique := by
        intro k
        rw [hstep]
        by_cases hk : k = a
        · simp [hk]
        · simp [hk, h k]
      rw [ih (d.step a) hinv, hstep]
      simp only [firstOccurrences, List.filter_cons, ha, not_false_eq_true, decide_True,
        if_true, List.append_assoc, List.singleton_append, List.filter_filter]
      congr 2
      apply List.filter_congr
      intro x _
      by_cases hx : x ∈ d.unique
      · simp [hx]
      · by_cases hxa : x = a
        · simp [hxa]
        · simp [hx, hxa]

theorem removeDuplicateStrings_eq (items : List GoString) :
    removeDuplicateStrings items = firstOccurrences items := by
  unfold removeDuplicateStrings
  rw [foldl_step_unique items Dedup.init (by intro k; simp [Dedup.init])]
  simp [Dedup.init]

theorem extractPDFLinks_eq (html : GoString) :
    extractPDFLinks html = firstOccurrences (findAllString html) := by
  unfold extractPDFLinks
  simp only
  rw [foldl_step_unique _ Dedup.init (by intro k; simp [Dedup.init])]
  simp [Dedup.init]

/-! ## Lemmas: the matcher against the language of the pattern -/

theorem lit_eq_some {p s r : GoString} : lit p s = some r ↔ s = p ++ r := by
  induction p generalizing s with
  | nil => simp [lit, eq_comm]
  | cons a p ih =>
    cases s with
    | nil => simp [lit]
    | cons c s =>
      simp only [lit, List.cons_append, List.cons.injEq]
      by_cases h : a = c
      · simp [h, ih]
      · simp [h, Ne.symm h]

theorem lit_append (p r : GoString) : lit p (p ++ r) = some r := lit_eq_some.2 rfl

theorem queryPart_starts (r : GoString) : queryPart r <+: r := by
  unfold queryPart
  split
  · exact (List.prefix_cons_inj 63).2 (List.takeWhile_prefix _)
  · exact List.nil_prefix

theorem queryPart_shape (r : GoString) :
    queryPart r = [] ∨ ∃ q, queryPart r = 63 :: q ∧ ∀ c ∈ q, urlByte c = true := by
  unfold queryPart
  split
  · exact Or.inr ⟨_, rfl, fun c hc => List.mem_takeWhile_imp hc⟩
  · exact Or.inl rfl

theorem lazyTail_sound (s m : GoString) (h : lazyTail s = some m) :
    ∃ body q, m = body ++ str ".pdf" ++ q ∧ (∀ c ∈ body, urlByte c = true) ∧
      (q = [] ∨ ∃ r, q = 63 :: r ∧ ∀ c ∈ r, urlByte c = true) ∧ m <+: s := by
  induction s generalizing m with
  | nil => simp [lazyTail] at h
  | cons c t ih =>
    rw [lazyTail] at h
    cases hl : lit (str ".pdf") (c :: t) with
    | some r =>
      rw [hl] at h
      simp only [Option.some.injEq] at h
      subst h
      refine ⟨[], queryPart r, by simp, by simp, queryPart_shape r, ?_⟩
      rw [lit_eq_some.1 hl]
      exact (List.prefix_append_right_inj _).2 (queryPart_starts r)
    | none =>
      rw [hl] at h
      by_cases hc : urlByte c = true
      · simp only [hc, if_true, Option.map_eq_some'] at h
        obtain ⟨m1, hm1, rfl⟩ := h
        obtain ⟨body, q, rfl, hb, hq, hp⟩ := ih m1 hm1
        refine ⟨c :: body, q, by simp, ?_, hq, (List.prefix_cons_inj c).2 hp⟩
        intro x hx
        rcases List.mem_cons.1 hx with rfl | hx
        · exact hc
        · exact hb x hx
      · simp [hc] at h

theorem pdfBody_sound (s m : GoString) (h : pdfBody s = some m) :
    ∃ body q, m = body ++ str ".pdf" ++ q ∧ body ≠ [] ∧ (∀ c ∈ body, urlByte c = true) ∧
      (q = [] ∨ ∃ r, q = 63 :: r ∧ ∀ c ∈ r, urlByte c = true) ∧ m <+: s := by
  cases s with
  | nil => simp [pdfBody] at h
  | cons c t =>
    rw [pdfBody] at h
    by_cases hc : urlByte c = true
    · simp only [hc, if_true, Option.map_eq_some'] at h
      obtain ⟨m1, hm1, rfl⟩ := h
      obtain ⟨body, q, rfl, hb, hq, hp⟩ := lazyTail_sound t m1 hm1
      refine ⟨c :: body, q, by simp, by simp, ?_, hq, (List.prefix_cons_inj c).2 hp⟩
      intro x hx
      rcases List.mem_cons.1 hx with rfl | hx
      · exact hc
      · exact hb x hx
    · simp [hc] at h

theorem restOfUrl_sound (scheme r m : GoString) (h : restOfUrl scheme r = some m) :
    (∃ body q, m = scheme ++ str "://" ++ body ++ str ".pdf" ++ q ∧ body ≠ [] ∧
      (∀ c ∈ body, urlByte c = true) ∧
      (q = [] ∨ ∃ r, q = 63 :: r ∧ ∀ c ∈ r, urlByte c = true)) ∧ m <+: scheme ++ r := by
  unfold restOfUrl at h
  simp only [Option.bind_eq_some, Option.map_eq_some'] at h
  obtain ⟨r2, hr2, m1, hm1, rfl⟩ := h
  obtain ⟨body, q, rfl, hne, hb, hq, hp⟩ := pdfBody_sound r2 m1 hm1
  refine ⟨⟨body, q, by simp, hne, hb, hq⟩, ?_⟩
  rw [lit_eq_some.1 hr2, List.append_assoc scheme]
  exact (List.prefix_append_right_inj _).2 ((List.prefix_append_right_inj _).2 hp)

theorem matchHere_sound (s m : GoString) (h : matchHere s = some m) :
    PdfUrl m ∧ m <+: s := by
  unfold matchHere at h
  cases hl : lit (str "http") s with
  | none => simp [hl] at h
  | some r =>
    rw [hl] at h
    simp only at h
    have hs : s = str "http" ++ r := lit_eq_some.1 hl
    split at h
    · -- the branch with `s`
      rename_i m1 hm1
      simp only [Option.some.injEq] at h
      subst h
      split at hm1
      · rename_i r1
        obtain ⟨⟨body, q, rfl, hne, hb, hq⟩, hp⟩ := restOfUrl_sound _ _ _ hm1
        refine ⟨⟨str "https", body, q, rfl, Or.inr rfl, hne, hb, hq⟩, ?_⟩
        rw [hs]
        have : str "http" ++ 115 :: r1 = str "https" ++ r1 := by
          simp [str, utf8]
        rw [this]
        exact hp
      · simp at hm1
    · obtain ⟨⟨body, q, rfl, hne, hb, hq⟩, hp⟩ := restOfUrl_sound _ _ _ h
      refine ⟨⟨str "http", body, q, rfl, Or.inl rfl, hne, hb, hq⟩, ?_⟩
      rw [hs]
      exact hp

theorem matchHere_ne_nil (s m : GoString) (h : matchHere s = some m) : m ≠ [] := by
  obtain ⟨⟨scheme, body, q, rfl, hsch, -⟩, -⟩ := matchHere_sound s m h
  rcases hsch with rfl | rfl <;> simp [str, utf8]

theorem findAllFrom_sound (s : GoString) (k : Nat) (m : GoString)
    (h : m ∈ findAllFrom k s) : PdfUrl m ∧ m <:+: s := by
  induction s generalizing k with
  | nil => simp [findAllFrom] at h
  | cons c t ih =>
    have tail_infix : ∀ {x : GoString}, x <:+: t → x <:+: c :: t :=
      fun hx => hx.trans (List.suffix_cons c t).isInfix
    cases k with
    | succ k =>
      rw [findAllFrom] at h
      exact ⟨(ih k h).1, tail_infix (ih k h).2⟩
    | zero =>
      rw [findAllFrom] at h
      cases hm : matchHere (c :: t) with
      | none =>
        rw [hm] at h
        exact ⟨(ih 0 h).1, tail_infix (ih 0 h).2⟩
      | some m1 =>
        rw [hm] at h
        rcases List.mem_cons.1 h with rfl | h
        · exact ⟨(matchHere_sound _ _ hm).1, (matchHere_sound _ _ hm).2.isInfix⟩
        · exact ⟨(ih _ h).1, tail_infix (ih _ h).2⟩

theorem lazyTail_complete (body rest : GoString) (hb : ∀ c ∈ body, urlByte c = true) :
    (lazyTail (body ++ str ".pdf" ++ rest)).isSome = true := by
  induction body with
  | nil =>
    have : ([] : GoString) ++ str ".pdf" ++ rest = 46 :: (str "pdf" ++ rest) := by
      simp [str, utf8]
    rw [this, lazyTail, ← this, List.nil_append, lit_append]
    rfl
  | cons c body ih =>
    rw [List.cons_append, List.cons_append, lazyTail]
    cases hl : lit (str ".pdf") (c :: (body ++ str ".pdf" ++ rest)) with
    | some r => rfl
    | none =>
      have hc : urlByte c = true := hb c (List.mem_cons_self _ _)
      have := ih (fun x hx => hb x (List.mem_cons_of_mem _ hx))
      simp only [hc, if_true, Option.isSome_map']
      exact this

theorem pdfBody_complete (body rest : GoString) (hne : body ≠ [])
    (hb : ∀ c ∈ body, urlByte c = true) :
    (pdfBody (body ++ str ".pdf" ++ rest)).isSome = true := by
  cases body with
  | nil => exact absurd rfl hne
  | cons c body =>
    rw [List.cons_append, List.cons_append, pdfBody]
    have hc : urlByte c = true := hb c (List.mem_cons_self _ _)
    simp only [hc, if_true, Option.isSome_map']
    exact lazyTail_complete body rest (fun x hx => hb x (List.mem_cons_of_mem _ hx))

theorem restOfUrl_complete (scheme body rest : GoString) (hne : body ≠ [])
    (hb : ∀ c ∈ body, urlByte c = true) :
    (restOfUrl scheme (str "://" ++ (body ++ str ".pdf" ++ rest))).isSome = true := by
  unfold restOfUrl
  rw [lit_append]
  simp only [Option.some_bind, Option.isSome_map']
  exact pdfBody_complete body rest hne hb

/-- A text that starts with a word of the language has a match at its front. -/
theorem matchHere_complete (m rest : GoString) (hm : PdfUrl m) :
    (matchHere (m ++ rest)).isSome = true := by
  obtain ⟨scheme, body, q, rfl, hsch, hne, hb, -⟩ := hm
  have hrest := fun sch => restOfUrl_complete sch body (q ++ rest) hne hb
  rcases hsch with rfl | rfl
  · have e : str "http" ++ str "://" ++ body ++ str ".pdf" ++ q ++ rest
        = str "http" ++ (str "://" ++ (body ++ str ".pdf" ++ (q ++ rest))) := by
      simp
    rw [e]
    unfold matchHere
    rw [lit_append]
    have h2 : str "://" ++ (body ++ str ".pdf" ++ (q ++ rest))
        = 58 :: (str "//" ++ (body ++ str ".pdf" ++ (q ++ rest))) := by
      simp [str, utf8]
    simp only
    rw [h2]
    simp only
    rw [← h2]
    exact hrest _
  · have e : str "https" ++ str "://" ++ body ++ str ".pdf" ++ q ++ rest
        = str "http" ++ (115 :: (str "://" ++ (body ++ str ".pdf" ++ (q ++ rest)))) := by
      simp [str, utf8]
    rw [e]
    unfold matchHere
    rw [lit_append]
    simp only
    cases hw : restOfUrl (str "https") (str "://" ++ (body ++ str ".pdf" ++ (q ++ rest))) with
    | some m1 => rfl
    | none =>
      have := hrest (str "https")
      rw [hw] at this
      exact absurd this (by simp)

theorem findAllFrom_zero_eq_nil (s : GoString) (h : findAllFrom 0 s = []) :
    ∀ t, t <:+ s → matchHere t = none := by
  induction s with
  | nil =>
    intro t ht
    rw [List.suffix_nil.1 ht]
    rfl
  | cons c s ih =>
    rw [findAllFrom] at h
    cases hm : matchHere (c :: s) with
    | some m => rw [hm] at h; simp at h
    | none =>
      rw [hm] at h
      intro t ht
      rcases List.suffix_cons_iff.1 ht with rfl | ht
      · exact hm
      · exact ih h t ht

/-- The scan finds a match exactly when some part of the text is a word of the
language. -/
theorem findAllString_eq_nil_iff (html : GoString) :
    findAllString html = [] ↔ ¬ ∃ m, PdfUrl m ∧ m <:+: html := by
  constructor
  · rintro h ⟨m, hm, a, b, rfl⟩
    have := findAllFrom_zero_eq_nil _ h (m ++ b) ⟨a, by simp⟩
    have hc := matchHere_complete m b hm
    rw [this] at hc
    simp at hc
  · intro h
    cases hf : findAllString html with
    | nil => rfl
    | cons m ms =>
      exfalso
      apply h
      have : m ∈ findAllFrom 0 html := by
        unfold findAllString at hf
        rw [hf]
        exact List.mem_cons_self _ _
      exact ⟨m, findAllFrom_sound html 0 m this⟩

/-! ## Lemmas: the scan yields the leftmost-first matches -/

theorem takeWhile_urlByte_max (r t : GoString) (hp : r <+: t)
    (hall : ∀ c ∈ r, urlByte c = true) : r.length ≤ (t.takeWhile urlByte).length := by
  induction r generalizing t with
  | nil => simp
  | cons a r ih =>
    obtain ⟨x, rfl⟩ := hp
    have ha : urlByte a = true := hall a (List.mem_cons_self _ _)
    rw [List.cons_append, List.takeWhile_cons]
    simp only [ha, if_true, List.length_cons]
    exact Nat.succ_le_succ
      (ih (r ++ x) (List.prefix_append _ _) (fun c hc => hall c (List.mem_cons_of_mem _ hc)))

theorem queryPart_max (rest q1 : GoString) (hq : IsQuery q1) (hp : q1 <+: rest) :
    q1.length ≤ (queryPart rest).length := by
  rcases hq with rfl | ⟨r, rfl, hr⟩
  · simp
  · obtain ⟨x, rfl⟩ := hp
    rw [List.cons_append]
    show (63 :: r).length ≤ (63 :: (r ++ x).takeWhile urlByte).length
    simp only [List.length_cons]
    exact Nat.succ_le_succ (takeWhile_urlByte_max r (r ++ x) (List.prefix_append _ _) hr)

theorem lit_isSome_of_starts (p x s : GoString) (h : p ++ x <+: s) :
    ∃ r, lit p s = some r := by
  obtain ⟨y, rfl⟩ := h
  exact ⟨x ++ y, by rw [List.append_assoc]; exact lit_append p (x ++ y)⟩

theorem lazyTail_front (s m : GoString) (h : lazyTail s = some m) :
    ∃ body q, m = body ++ str ".pdf" ++ q ∧ (∀ c ∈ body, urlByte c = true) ∧ IsQuery q ∧
      ∀ body1 q1 : GoString, IsQuery q1 → body1 ++ str ".pdf" ++ q1 <+: s →
        body.length ≤ body1.length ∧ (body1.length = body.length → q1.length ≤ q.length) := by
  induction s generalizing m with
  | nil => simp [lazyTail] at h
  | cons c t ih =>
    rw [lazyTail] at h
    cases hl : lit (str ".pdf") (c :: t) with
    | some r =>
      rw [hl] at h
      simp only [Option.some.injEq] at h
      subst h
      refine ⟨[], queryPart r, by simp, by simp, queryPart_shape r, ?_⟩
      intro body1 q1 hq1 hp
      refine ⟨Nat.zero_le _, ?_⟩
      intro hlen
      have hb : body1 = [] := List.length_eq_zero.1 hlen
      subst hb
      rw [lit_eq_some.1 hl, List.nil_append] at hp
      exact queryPart_max r q1 hq1 ((List.prefix_append_right_inj _).1 hp)
    | none =>
      rw [hl] at h
      by_cases hc : urlByte c = true
      · simp only [hc, if_true, Option.map_eq_some'] at h
        obtain ⟨m1, hm1, rfl⟩ := h
        obtain ⟨body, q, rfl, hb, hq, hmin⟩ := ih m1 hm1
        refine ⟨c :: body, q, by simp, ?_, hq, ?_⟩
        · intro x hx
          rcases List.mem_cons.1 hx with rfl | hx
          · exact hc
          · exact hb x hx
        · intro body1 q1 hq1 hp
          cases body1 with
          | nil =>
            obtain ⟨r, hr⟩ := lit_isSome_of_starts (str ".pdf") q1 (c :: t) (by simpa using hp)
            rw [hr] at hl
            exact absurd hl (by simp)
          | cons c1 b1 =>
            have hp2 : b1 ++ str ".pdf" ++ q1 <+: t := by
              rw [List.cons_append, List.cons_append] at hp
              exact (List.cons_prefix_cons.1 hp).2
            obtain ⟨h1, h2⟩ := hmin b1 q1 hq1 hp2
            simp only [List.length_cons, Nat.succ_le_succ_iff, Nat.succ.injEq]
            exact ⟨h1, h2⟩
      · simp [hc] at h

theorem pdfBody_front (s m : GoString) (h : pdfBody s = some m) :
    ∃ body q, m = body ++ str ".pdf" ++ q ∧ body ≠ [] ∧ (∀ c ∈ body, urlByte c = true) ∧
      IsQuery q ∧
      ∀ body1 q1 : GoString, body1 ≠ [] → IsQuery q1 → body1 ++ str ".pdf" ++ q1 <+: s →
        body.length ≤ body1.length ∧ (body1.length = body.length → q1.length ≤ q.length) := by
  cases s with
  | nil => simp [pdfBody] at h
  | cons c t =>
    rw [pdfBody] at h
    by_cases hc : urlByte c = true
    · simp only [hc, if_true, Option.map_eq_some'] at h
      obtain ⟨m1, hm1, rfl⟩ := h
      obtain ⟨body, q, rfl, hb, hq, hmin⟩ := lazyTail_front t m1 hm1
      refine ⟨c :: body, q, by simp, by simp, ?_, hq, ?_⟩
      · intro x hx
        rcases List.mem_cons.1 hx with rfl | hx
        · exact hc
        · exact hb x hx
      · intro body1 q1 hne hq1 hp
        cases body1 with
        | nil => exact absurd rfl hne
        | cons c1 b1 =>
          have hp2 : b1 ++ str ".pdf" ++ q1 <+: t := by
            rw [List.cons_append, List.cons_append] at hp
            exact (List.cons_prefix_cons.1 hp).2
          obtain ⟨h1, h2⟩ := hmin b1 q1 hq1 hp2
          exact ⟨Nat.succ_le_succ h1, fun e => h2 (Nat.succ.inj e)⟩
    · simp [hc] at h

theorem restOfUrl_front (scheme r m : GoString) (h : restOfUrl scheme r = some m) :
    ∃ body q, m = scheme ++ str "://" ++ body ++ str ".pdf" ++ q ∧ body ≠ [] ∧
      (∀ c ∈ body, urlByte c = true) ∧ IsQuery q ∧
      ∀ body1 q1 : GoString, body1 ≠ [] → IsQuery q1 →
        scheme ++ str "://" ++ body1 ++ str ".pdf" ++ q1 <+: scheme ++ r →
        body.length ≤ body1.length ∧ (body1.length = body.length → q1.length ≤ q.length) := by
  unfold restOfUrl at h
  simp only [Option.bind_eq_some, Option.map_eq_some'] at h
  obtain ⟨r2, hr2, m1, hm1, rfl⟩ := h
  obtain ⟨body, q, rfl, hne, hb, hq, hmin⟩ := pdfBody_front r2 m1 hm1
  refine ⟨body, q, by simp, hne, hb, hq, ?_⟩
  intro body1 q1 hne1 hq1 hp
  apply hmin body1 q1 hne1 hq1
  rw [lit_eq_some.1 hr2] at hp
  have e : scheme ++ str "://" ++ body1 ++ str ".pdf" ++ q1
      = scheme ++ (str "://" ++ (body1 ++ str ".pdf" ++ q1)) := by simp
  rw [e] at hp
  exact (List.prefix_append_right_inj _).1 ((List.prefix_append_right_inj _).1 hp)

theorem matchHere_front (t m : GoString) (h : matchHere t = some m) : IsFrontMatch t m := by
  have hsound := matchHere_sound t m h
  unfold matchHere at h
  cases hl : lit (str "http") t with
  | none => simp [hl] at h
  | some r =>
    rw [hl] at h
    simp only at h
    have ht : t = str "http" ++ r := lit_eq_some.1 hl
    have hs5 : ∀ x : GoString, str "https" ++ x = str "http" ++ 115 :: x := by
      intro x; simp [str, utf8]
    have hcolon : ∀ x : GoString, str "://" ++ x = 58 :: (str "//" ++ x) := by
      intro x; simp [str, utf8]
    split at h
    · rename_i m1 hm1
      simp only [Option.some.injEq] at h
      subst h
      split at hm1
      · rename_i r1
        obtain ⟨body, q, rfl, hne, hb, hq, hmin⟩ := restOfUrl_front _ _ _ hm1
        refine ⟨str "https", body, q, rfl, Or.inr rfl, hne, hb, hq, hsound.2, ?_⟩
        intro scheme1 body1 q1 hsch hne1 _ hq1 hp
        rw [ht] at hp
        rcases hsch with rfl | rfl
        · exfalso
          have e : str "http" ++ str "://" ++ body1 ++ str ".pdf" ++ q1
              = str "http" ++ (58 :: (str "//" ++ (body1 ++ str ".pdf" ++ q1))) := by
            simp [str, utf8]
          rw [e] at hp
          have := (List.cons_prefix_cons.1 ((List.prefix_append_right_inj _).1 hp)).1
          exact absurd this (by decide)
        · apply hmin body1 q1 hne1 hq1
          rw [hs5 r1]
          exact hp
      · simp at hm1
    · rename_i hnone
      obtain ⟨body, q, rfl, hne, hb, hq, hmin⟩ := restOfUrl_front _ _ _ h
      refine ⟨str "http", body, q, rfl, Or.inl rfl, hne, hb, hq, hsound.2, ?_⟩
      intro scheme1 body1 q1 hsch hne1 _ hq1 hp
      rw [ht] at hp
      rcases hsch with rfl | rfl
      · exact hmin body1 q1 hne1 hq1 hp
      · exfalso
        unfold restOfUrl at h
        simp only [Option.bind_eq_some] at h
        obtain ⟨r2, hr2, -⟩ := h
        rw [lit_eq_some.1 hr2, hcolon r2] at hp
        have e : str "https" ++ str "://" ++ body1 ++ str ".pdf" ++ q1
            = str "http" ++ (115 :: (str "://" ++ (body1 ++ str ".pdf" ++ q1))) := by
          simp [str, utf8]
        rw [e] at hp
        have := (List.cons_prefix_cons.1 ((List.prefix_append_right_inj _).1 hp)).1
        exact absurd this (by decide)

theorem findAllFrom_drop (s : GoString) :
    ∀ k, findAllFrom k s = findAllFrom 0 (s.drop k) := by
  induction s with
  | nil => intro k; cases k <;> rfl
  | cons c t ih =>
    intro k
    cases k with
    | zero => rfl
    | succ k => rw [findAllFrom, List.drop_succ_cons]; exact ih k

theorem findAllFrom_match (m rest : GoString) (h : matchHere (m ++ rest) = some m) :
    findAllFrom 0 (m ++ rest) = m :: findAllFrom 0 rest := by
  have hne := matchHere_ne_nil _ _ h
  cases m with
  | nil => exact absurd rfl hne
  | cons c m1 =>
    rw [List.cons_append] at h ⊢
    rw [findAllFrom, h]
    simp only
    rw [findAllFrom_drop]
    simp

theorem no_word_of_matchHere_none (t : GoString) (h : matchHere t = none) :
    ¬ ∃ w, PdfUrl w ∧ w <+: t := by
  rintro ⟨w, hw, x, rfl⟩
  have := matchHere_complete w x hw
  rw [h] at this
  simp at this

theorem leftmostMatches_cons (c : Nat) (t : GoString) (ms : List GoString)
    (hnone : matchHere (c :: t) = none) (h : LeftmostMatches t ms) :
    LeftmostMatches (c :: t) ms := by
  have hfront := no_word_of_matchHere_none _ hnone
  cases h with
  | done _ hno =>
    refine LeftmostMatches.done _ ?_
    rintro ⟨w, hw, hin⟩
    rcases List.infix_cons_iff.1 hin with hp | hi
    · exact hfront ⟨w, hw, hp⟩
    · exact hno ⟨w, hw, hi⟩
  | step gap m rest ms1 hgap hm hrest =>
    have := LeftmostMatches.step (c :: gap) m rest ms1 ?_ hm hrest
    · simpa using this
    · intro k hk
      cases k with
      | zero => simpa using hfront
      | succ k =>
        rw [List.cons_append, List.drop_succ_cons]
        exact hgap k (by simpa using hk)

/-- The scan of `FindAllString` yields the successive non-overlapping leftmost
matches. -/
theorem findAllString_leftmost (html : GoString) :
    LeftmostMatches html (findAllString html) := by
  unfold findAllString
  suffices hall : ∀ n (s : GoString), s.length = n → LeftmostMatches s (findAllFrom 0 s) from
    hall _ html rfl
  intro n
  induction n using Nat.strong_induction_on with
  | _ n ih =>
    intro html hn
    cases html with
    | nil =>
      refine LeftmostMatches.done _ ?_
      rintro ⟨w, hw, hin⟩
      have hw0 : w = [] := List.eq_nil_of_infix_nil hin
      obtain ⟨scheme, body, q, rfl, hsch, -⟩ := hw
      rcases hsch with rfl | rfl <;> simp [str, utf8] at hw0
    | cons c t =>
      cases hm : matchHere (c :: t) with
      | none =>
        have e : findAllFrom 0 (c :: t) = findAllFrom 0 t := by rw [findAllFrom, hm]
        rw [e]
        exact leftmostMatches_cons c t _ hm (ih t.length (by simp [← hn]) t rfl)
      | some m =>
        obtain ⟨rest, hrest⟩ := (matchHere_sound _ _ hm).2
        rw [← hrest] at hm ⊢
        rw [findAllFrom_match m rest hm]
        have hlen : rest.length < n := by
          have hne := matchHere_ne_nil _ _ hm
          have : 0 < m.length := List.length_pos.2 hne
          rw [← hn, ← hrest, List.length_append]
          omega
        have := LeftmostMatches.step [] m rest _ (by simp) (matchHere_front _ _ hm)
          (ih rest.length hlen rest rfl)
        simpa using this

theorem frontMatch_pdfUrl {t m : GoString} (h : IsFrontMatch t m) : PdfUrl m := by
  obtain ⟨scheme, body, q, rfl, hsch, hne, hb, hq, -, -⟩ := h
  exact ⟨scheme, body, q, rfl, hsch, hne, hb, hq⟩

theorem frontMatch_starts {t m : GoString} (h : IsFrontMatch t m) : m <+: t := by
  obtain ⟨_, _, _, _, _, _, _, _, hp, _⟩ := h
  exact hp

/-- The match reported at the front of a text is determined by the text. -/
theorem frontMatch_unique {t m1 m2 : GoString} (h1 : IsFrontMatch t m1)
    (h2 : IsFrontMatch t m2) : m1 = m2 := by
  have hp1 := frontMatch_starts h1
  have hp2 := frontMatch_starts h2
  obtain ⟨s1, b1, q1, rfl, hs1, hne1, hb1, hq1, -, hmin1⟩ := h1
  obtain ⟨s2, b2, q2, rfl, hs2, hne2, hb2, hq2, -, hmin2⟩ := h2
  obtain ⟨ha, hb⟩ := hmin1 s2 b2 q2 hs2 hne2 hb2 hq2 hp2
  obtain ⟨hc, hd⟩ := hmin2 s1 b1 q1 hs1 hne1 hb1 hq1 hp1
  have hbl : b1.length = b2.length := Nat.le_antisymm ha hc
  have hql : q1.length = q2.length := Nat.le_antisymm (hd hbl) (hb hbl.symm)
  have hsl : s1 = s2 := by
    rcases hs1 with rfl | rfl <;> rcases hs2 with rfl | rfl
    · rfl
    · exfalso
      obtain ⟨x, hx⟩ := hp1
      obtain ⟨y, hy⟩ := hp2
      have e := hx.trans hy.symm
      simp [str, utf8] at e
    · exfalso
      obtain ⟨x, hx⟩ := hp1
      obtain ⟨y, hy⟩ := hp2
      have e := hx.trans hy.symm
      simp [str, utf8] at e
    · rfl
  subst hsl
  apply List.prefix_of_prefix_length_le hp1 hp2 (by simp [hbl, hql]) |>.eq_of_length
  simp [hbl, hql]

/-- A text has one list of successive leftmost matches. -/
theorem leftmostMatches_unique {s : GoString} {ms1 ms2 : List GoString}
    (h1 : LeftmostMatches s ms1) (h2 : LeftmostMatches s ms2) : ms1 = ms2 := by
  induction h1 generalizing ms2 with
  | done s hno =>
    cases h2 with
    | done _ _ => rfl
    | step gap m rest ms hgap hm hrest =>
      exact absurd ⟨m, frontMatch_pdfUrl hm, ⟨gap, rest, by simp⟩⟩ hno
  | step gap1 m1 rest1 ms1 hgap1 hm1 hrest1 ih =>
    generalize hs : gap1 ++ (m1 ++ rest1) = s at h2
    cases h2 with
    | done _ hno =>
      exact absurd ⟨m1, frontMatch_pdfUrl hm1, ⟨gap1, rest1, by rw [← hs]; simp⟩⟩ hno
    | step gap2 m2 rest2 ms2 hgap2 hm2 hrest2 =>
      have word1 : ∃ w, PdfUrl w ∧ w <+: (gap1 ++ (m1 ++ rest1)).drop gap1.length :=
        ⟨m1, frontMatch_pdfUrl hm1, by simp⟩
      have word2 : ∃ w, PdfUrl w ∧ w <+: (gap2 ++ (m2 ++ rest2)).drop gap2.length :=
        ⟨m2, frontMatch_pdfUrl hm2, by simp⟩
      have hlen : gap1.length = gap2.length := by
        rcases Nat.lt_trichotomy gap1.length gap2.length with h | h | h
        · exact absurd (hs ▸ word1) (hgap2 _ h)
        · exact h
        · exact absurd (hs.symm ▸ word2) (hgap1 _ h)
      have hgap : gap1 = gap2 := by
        have := congrArg (List.take gap1.length) hs
        rw [List.take_left' rfl, List.take_left' hlen.symm] at this
        exact this
      subst hgap
      have ht : m1 ++ rest1 = m2 ++ rest2 := List.append_cancel_left hs
      have hm : m1 = m2 := frontMatch_unique hm1 (ht ▸ hm2)
      subst hm
      have hr : rest1 = rest2 := List.append_cancel_left ht
      subst hr
      rw [ih hrest2]

/-! ## Lemmas: filename derivation -/

theorem replaceFrom_safe (b : Bool) (s : GoString) :
    ∀ c ∈ replaceFrom b s, safeByte c = true := by
  induction s generalizing b with
  | nil => simp [replaceFrom]
  | cons x t ih =>
    intro c hc
    rw [replaceFrom] at hc
    by_cases hx : safeByte x = true
    · simp only [hx, if_true, List.mem_cons] at hc
      rcases hc with rfl | hc
      · exact hx
      · exact ih false c hc
    · simp only [hx, Bool.false_eq_true, if_false] at hc
      cases b with
      | true => exact ih true c (by simpa using hc)
      | false =>
        simp only [Bool.false_eq_true, if_false, List.mem_cons] at hc
        rcases hc with rfl | hc
        · rfl
        · exact ih true c hc

theorem replaceFrom_eq_collapseRuns (s : GoString) :
    replaceFrom false s = collapseRuns s ∧
    replaceFrom true s = collapseRuns (s.dropWhile fun x => !safeByte x) := by
  induction s with
  | nil => simp [replaceFrom, collapseRuns]
  | cons c t ih =>
    by_cases hc : safeByte c = true
    · have h1 : replaceFrom false (c :: t) = collapseRuns (c :: t) := by
        rw [replaceFrom, collapseRuns]
        simp [hc, ih.1]
      refine ⟨h1, ?_⟩
      rw [List.dropWhile_cons]
      simp only [hc, Bool.not_true, Bool.false_eq_true, if_false]
      rw [← h1, replaceFrom, replaceFrom]
      simp [hc]
    · refine ⟨?_, ?_⟩
      · rw [replaceFrom, collapseRuns]
        simp [hc, ih.2]
      · rw [List.dropWhile_cons]
        simp only [hc, Bool.not_false, if_true]
        rw [replaceFrom]
        simp [hc, ih.2]

theorem replaceAllString_eq_collapseRuns (s : GoString) :
    replaceAllString s = collapseRuns s := (replaceFrom_eq_collapseRuns s).1

theorem queryUnescape_percentDecode (s : GoString) :
    (queryUnescape s).map (List.map plusToSpace) = (percentDecode s).map (List.map plusToSpace) := by
  unfold queryUnescape
  induction s using percentDecode.induct with
  | case1 => rfl
  | case2 a b t h ih =>
    rw [unescape, percentDecode]
    simp only [h, Bool.not_true, Bool.false_eq_true, if_false, if_true]
    simp only [Option.map_map] at ih ⊢
    have e : ∀ o : Option GoString,
        Option.map (List.map plusToSpace ∘ fun x => (unhex a * 16 + unhex b) :: x) o
          = Option.map (fun x => plusToSpace (unhex a * 16 + unhex b) :: x)
              (Option.map (List.map plusToSpace) o) := by
      intro o; cases o <;> rfl
    simp [e, ih]
  | case3 a b t h =>
    rw [unescape, percentDecode]
    simp [h]
  | case4 t h =>
    rw [percentDecode.eq_3 _ h, unescape.eq_3 _ _ h]
  | case5 c t h1 h2 ih =>
    have e : ∀ (k : Nat) (o : Option GoString),
        Option.map (List.map plusToSpace) (Option.map (fun x => k :: x) o)
          = Option.map (fun x => plusToSpace k :: x) (Option.map (List.map plusToSpace) o) := by
      intro k o; cases o <;> rfl
    rw [percentDecode.eq_4 _ _ h1 h2]
    by_cases h3 : c = 43
    · subst h3
      rw [unescape]
      simp only [if_true, e, ih]
      rfl
    · rw [unescape.eq_5 _ _ _ h1 h2 h3]
      simp [e, ih]

theorem replaceFrom_toLower_plusToSpace (s : GoString) (b : Bool) :
    replaceFrom b (toLower (s.map plusToSpace)) = replaceFrom b (toLower s) := by
  induction s using toLower.induct generalizing b with
  | case1 => rfl
  | case2 t ih =>
    simp only [List.map_cons, plusToSpace, toLower, replaceFrom] at ih ⊢
    simp [ih]
  | case3 t ih =>
    simp only [List.map_cons, plusToSpace, toLower, replaceFrom] at ih ⊢
    simp [ih]
  | case4 c t h1 h2 ih =>
    have hmap : ∀ (x : Nat) (k : Nat), plusToSpace x = k → k ≠ 32 → x = k := by
      intro x k hx hk
      unfold plusToSpace at hx
      split at hx
      · exact absurd hx.symm hk
      · exact hx
    have h1m : ∀ t1, plusToSpace c = 196 → t.map plusToSpace = 176 :: t1 → False := by
      intro t1 hc ht
      cases t with
      | nil => simp at ht
      | cons x t2 =>
        simp only [List.map_cons, List.cons.injEq] at ht
        exact h1 t2 (hmap c 196 hc (by decide)) (by rw [hmap x 176 ht.1 (by decide)])
    have h2m : ∀ t1, plusToSpace c = 226 → t.map plusToSpace = 132 :: 170 :: t1 → False := by
      intro t1 hc ht
      cases t with
      | nil => simp at ht
      | cons x t2 =>
        cases t2 with
        | nil => simp at ht
        | cons y t3 =>
          simp only [List.map_cons, List.cons.injEq] at ht
          exact h2 t3 (hmap c 226 hc (by decide))
            (by rw [hmap x 132 ht.1 (by decide), hmap y 170 ht.2.1 (by decide)])
    rw [List.map_cons, toLower.eq_4 _ _ h1m h2m, toLower.eq_4 _ _ h1 h2]
    by_cases hc : c = 43
    · subst hc
      have e1 : safeByte (lowerByte (plusToSpace 43)) = false := by decide
      have e2 : safeByte (lowerByte 43) = false := by decide
      rw [replaceFrom, replaceFrom]
      simp only [e1, e2, Bool.false_eq_true, if_false, ih]
    · have e : plusToSpace c = c := by simp [plusToSpace, hc]
      rw [e, replaceFrom, replaceFrom]
      simp only [ih]

theorem finalSegment_eq_pathBase (path : GoString) (hne : path ≠ [])
    (hlast : path.getLast? ≠ some 47) : pathBase path = finalSegment path := by
  unfold pathBase finalSegment
  simp only [hne, if_false]
  have hrev : path.reverse ≠ [] := by simpa using hne
  cases hr : path.reverse with
  | nil => exact absurd hr hrev
  | cons x r =>
    have hx : x ≠ 47 := by
      intro e
      apply hlast
      rw [← List.head?_reverse, hr, e]
      rfl
    have hd : (x :: r).dropWhile (· == 47) = x :: r := by
      rw [List.dropWhile_cons]
      simp [hx]
    rw [hd]
    simp only [List.reverse_reverse]
    rw [← hr]
    simp only [List.reverse_reverse, hr]
    rw [List.takeWhile_cons]
    simp [hx]


theorem pathBase_cases (path : GoString) :
    (path = [] → pathBase path = str ".") ∧
    (path ≠ [] → (∀ c ∈ path, c = 47) → pathBase path = str "/") ∧
    (¬ (∀ c ∈ path, c = 47) → pathBase path = finalSegment (dropTrailingSlashes path)) := by
  refine ⟨fun h => by simp [pathBase, h], ?_, ?_⟩
  · intro hne hall
    have hd : path.reverse.dropWhile (· == 47) = [] := by
      rw [List.dropWhile_eq_nil_iff]
      intro x hx
      simp [hall x (List.mem_reverse.1 hx)]
    simp [pathBase, hne, hd]
  · intro hex
    have hne : path ≠ [] := by
      rintro rfl
      exact hex (by simp)
    unfold pathBase finalSegment dropTrailingSlashes
    simp only [hne, if_false]
    set stripped := (path.reverse.dropWhile (· == 47)).reverse with hs
    have hsne : stripped.reverse ≠ [] := by
      rw [hs, List.reverse_reverse]
      intro h
      rw [List.dropWhile_eq_nil_iff] at h
      apply hex
      intro c hc
      simpa using h c (List.mem_reverse.2 hc)
    have hhead : ∀ x r, stripped.reverse = x :: r → x ≠ 47 := by
      intro x r hxr
      rw [hs, List.reverse_reverse] at hxr
      have := List.head_dropWhile_not (· == 47) path.reverse
      intro e
      have h2 := this (by rw [hxr]; simp)
      simp only [hxr, List.head_cons, e] at h2
      simp at h2
    cases hr : stripped.reverse with
    | nil => exact absurd hr hsne
    | cons x r =>
      have hx := hhead x r hr
      rw [List.takeWhile_cons]
      simp [hx]

/-- The unfolding of `convertURLToSafeFilename` on a URL that parses, with the
library calls replaced by the operations the specification names. -/
theorem convert_eq_collapse (rawURL : GoString) (u : URL) (h : urlParse rawURL = some u) :
    convertURLToSafeFilename rawURL
      = collapseRuns (toLower ((percentDecode (pathBase u.Path)).getD (pathBase u.Path))) := by
  unfold convertURLToSafeFilename
  rw [h]
  simp only
  have hA := queryUnescape_percentDecode (pathBase u.Path)
  cases hq : queryUnescape (pathBase u.Path) with
  | none =>
    rw [hq] at hA
    cases hp : percentDecode (pathBase u.Path) with
    | none => simp [replaceAllString_eq_collapseRuns]
    | some d => rw [hp] at hA; simp at hA
  | some d1 =>
    rw [hq] at hA
    cases hp : percentDecode (pathBase u.Path) with
    | none => rw [hp] at hA; simp at hA
    | some d =>
      rw [hp] at hA
      simp only [Option.map_some', Option.some.injEq] at hA
      simp only [Option.getD_some]
      rw [← replaceAllString_eq_collapseRuns]
      unfold replaceAllString
      rw [← replaceFrom_toLower_plusToSpace d1, hA, replaceFrom_toLower_plusToSpace d]

/-! ## Link extraction: the claims -/

/-- C1: for every text, `extractPDFLinks` returns exactly the distinct matches of the
PDF-URL pattern. The list of matches is the one list of successive
non-overlapping leftmost matches of the text; the result has no two equal
entries, holds the same strings as the list of matches, holds each of them
once, lists them in the order of their first occurrence among the matches,
and every entry is a word of the pattern's language that occurs in the
text. -/
theorem extractPDFLinks_distinct_matches (html : GoString) :
    LeftmostMatches html (findAllString html) ∧
    (∀ ms, LeftmostMatches html ms → ms = findAllString html) ∧
    (extractPDFLinks html).Nodup ∧
    (∀ m, m ∈ extractPDFLinks html ↔ m ∈ findAllString html) ∧
    (∀ m, m ∈ findAllString html → (extractPDFLinks html).count m = 1) ∧
    (extractPDFLinks html).Pairwise
      (fun a b => (findAllString html).indexOf a < (findAllString html).indexOf b) ∧
    (∀ m, m ∈ extractPDFLinks html → PdfUrl m ∧ m <:+: html) := by
  rw [extractPDFLinks_eq]
  have hnd := nodup_firstOccurrences (findAllString html)
  have hmem := mem_firstOccurrences (findAllString html)
  have hleft := findAllString_leftmost html
  refine ⟨hleft, fun ms h => leftmostMatches_unique h hleft, hnd, hmem, ?_,
    firstOccurrences_order _, ?_⟩
  · intro m hm
    exact count_eq_one_of_nodup _ m hnd ((hmem m).2 hm)
  · intro m hm
    exact findAllFrom_sound html 0 m ((hmem m).1 hm)

/-- C7: `extractPDFLinks` returns the empty list exactly for the texts no part of which
matches the pattern; the empty string and the text of one newline are such
texts; and when the page fetch fails and no cache file exists, the content
`main` reads back is one of these two and yields no link. -/
theorem extractPDFLinks_no_match :
    (∀ html, (¬ ∃ m, PdfUrl m ∧ m <:+: html) ↔ extractPDFLinks html = []) ∧
    extractPDFLinks [] = [] ∧
    extractPDFLinks (str "\n") = [] ∧
    (∀ (env : MainEnv) (fs : FS), fileExists fs localHTMLFile = false →
      (env.page = .transportError ∨ ∃ body, env.page = .response body true) →
      ((loadPage env fs).2 = [] ∨ (loadPage env fs).2 = str "\n") ∧
        extractPDFLinks (loadPage env fs).2 = []) := by
  refine ⟨?_, by decide, by decide, ?_⟩
  · intro html
    rw [← findAllString_eq_nil_iff, extractPDFLinks_eq]
    constructor
    · intro h; rw [h]; rfl
    · intro h
      cases hf : findAllString html with
      | nil => rfl
      | cons a l => rw [hf] at h; simp [firstOccurrences] at h
  · intro env fs hfile hfail
    have hpage : downloadWebPage env.page = [] := by
      rcases hfail with h | ⟨body, h⟩ <;> rw [h] <;> rfl
    have hnone : fs localHTMLFile = none := by
      unfold fileExists at hfile
      cases hx : fs localHTMLFile with
      | none => rfl
      | some d => rw [hx] at hfile; simp at hfile
    have hcontent : (loadPage env fs).2 = [] ∨ (loadPage env fs).2 = str "\n" := by
      unfold loadPage
      simp only [hfile, hpage, Bool.not_false, if_true]
      unfold saveTextToFile readTextFile
      cases env.saveOpenErr with
      | true => simp [hnone]
      | false =>
        simp only [Bool.false_eq_true, if_false, hnone, Option.getD_none, List.nil_append]
        have hn : str "\n" = [10] := by decide
        rw [hn]
        cases env.saveWriteErr with
        | none =>
          simp only [FS.write, if_true]
          cases env.readErr with
          | none => exact Or.inr rfl
          | some k => cases k <;> simp
        | some j =>
          simp only [FS.write, if_true]
          cases env.readErr with
          | none => cases j <;> simp
          | some k => cases j <;> cases k <;> simp
    refine ⟨hcontent, ?_⟩
    rcases hcontent with h | h <;> rw [h] <;> decide

/-- C10: the second deduplication in `main` changes nothing:
`removeDuplicateStrings` returns the result of `extractPDFLinks` unchanged, so
`main` downloads exactly the extracted links; `removeDuplicateStrings` is
idempotent, and returns a list without equal entries as it is. -/
theorem removeDuplicateStrings_noop :
    (∀ html, removeDuplicateStrings (extractPDFLinks html) = extractPDFLinks html) ∧
    (∀ (env : MainEnv) (dirs : Dirs) (w : World), (main env dirs w).1 =
      downloadAll pdfFolder env.downloads 0 (extractPDFLinks (loadPage env w.files).2)
        { w with files := (loadPage env w.files).1 }) ∧
    (∀ items, removeDuplicateStrings (removeDuplicateStrings items)
      = removeDuplicateStrings items) ∧
    (∀ items : List GoString, items.Nodup → removeDuplicateStrings items = items) := by
  have hnodup : ∀ items : List GoString, items.Nodup → removeDuplicateStrings items = items :=
    fun items h => by rw [removeDuplicateStrings_eq, firstOccurrences_of_nodup items h]
  have hext : ∀ html, removeDuplicateStrings (extractPDFLinks html) = extractPDFLinks html :=
    fun html => hnodup _ (by rw [extractPDFLinks_eq]; exact nodup_firstOccurrences _)
  refine ⟨hext, ?_, ?_, hnodup⟩
  · intro env dirs w
    unfold main
    simp only [hext]
  · intro items
    exact hnodup _ (by rw [removeDuplicateStrings_eq]; exact nodup_firstOccurrences _)

/-! ## Filename derivation: the claims -/

/-- C3: for every input string, every byte of the result of
`convertURLToSafeFilename` is a lowercase ASCII letter, a digit, `.`, `_` or `-`. -/
theorem convertURLToSafeFilename_safe (rawURL : GoString) (c : Nat)
    (hc : c ∈ convertURLToSafeFilename rawURL) :
    (97 ≤ c ∧ c ≤ 122) ∨ (48 ≤ c ∧ c ≤ 57) ∨ c = 46 ∨ c = 95 ∨ c = 45 := by
  have hs : safeByte c = true := by
    unfold convertURLToSafeFilename at hc
    split at hc
    · simp at hc
    · exact replaceFrom_safe false _ c hc
  simp only [safeByte, Bool.or_eq_true, Bool.and_eq_true, decide_eq_true_eq, beq_iff_eq] at hs
  omega

/-- C3, at a URL with upper case, an escape, a plus sign and non-ASCII bytes: the name is
`a_b_c_.pdf`, and its byte `_` is one of the allowed bytes. -/
theorem convertURLToSafeFilename_safe_witness :
    convertURLToSafeFilename (str "https://ex.com/x/A%20b+c%C3%A9.PDF?q=1") = str "a_b_c_.pdf" ∧
    95 ∈ convertURLToSafeFilename (str "https://ex.com/x/A%20b+c%C3%A9.PDF?q=1") ∧
    ((97 ≤ 95 ∧ 95 ≤ 122) ∨ (48 ≤ 95 ∧ 95 ≤ 57) ∨ 95 = 46 ∨ 95 = 95 ∨ 95 = 45) :=
  ⟨by decide, by decide,
    convertURLToSafeFilename_safe (str "https://ex.com/x/A%20b+c%C3%A9.PDF?q=1") 95 (by decide)⟩

/-- C4 (as stated, refuted): the URLs `https://ex.com/docs/` and `http://a.pdf` parse, with the
paths `/docs/` and the empty path; the text after the last slash is empty in
both, and so is the name the claim describes, but the code returns `docs` and
`.`. The second URL is a link that `extractPDFLinks` returns. -/
theorem convertURLToSafeFilename_not_final_segment :
    (urlParse (str "https://ex.com/docs/")).map (·.Path) = some (str "/docs/") ∧
    convertURLToSafeFilename (str "https://ex.com/docs/") = str "docs" ∧
    specFilename (str "/docs/") = [] ∧
    extractPDFLinks (str "http://a.pdf") = [str "http://a.pdf"] ∧
    (urlParse (str "http://a.pdf")).map (·.Path) = some [] ∧
    convertURLToSafeFilename (str "http://a.pdf") = str "." ∧
    specFilename [] = [] := by
  refine ⟨by decide, by decide, ?_, by decide, by decide, by decide, ?_⟩
  · have : finalSegment (str "/docs/") = [] := by decide
    simp [specFilename, this, percentDecode, toLower, collapseRuns]
  · have : finalSegment [] = [] := by decide
    simp [specFilename, this, percentDecode, toLower, collapseRuns]

/-- C4 (amended): for every URL that parses, `convertURLToSafeFilename` returns
`path.Base` of the URL's path (the `Path` that `url.Parse` returns),
percent-decoded (the raw text when decoding fails), lowercased, with every
maximal run of bytes outside `[a-z0-9._-]` replaced by one `_` and every other
byte kept. `path.Base` is the final segment of the path when the path is not
empty and does not end in a slash, and the final segment of the path without
its trailing slashes when the path has a byte other than a slash; for the
empty path the result is `.`, and for a path of slashes only it is `_`. -/
theorem convertURLToSafeFilename_spec (rawURL : GoString) (u : URL)
    (h : urlParse rawURL = some u) :
    convertURLToSafeFilename rawURL
      = collapseRuns (toLower ((percentDecode (pathBase u.Path)).getD (pathBase u.Path))) ∧
    (u.Path ≠ [] → u.Path.getLast? ≠ some 47 →
      convertURLToSafeFilename rawURL = specFilename u.Path) ∧
    (¬ (∀ c ∈ u.Path, c = 47) →
      convertURLToSafeFilename rawURL = specFilename (dropTrailingSlashes u.Path)) ∧
    (u.Path = [] → convertURLToSafeFilename rawURL = str ".") ∧
    (u.Path ≠ [] → (∀ c ∈ u.Path, c = 47) → convertURLToSafeFilename rawURL = str "_") := by
  have hc := convert_eq_collapse rawURL u h
  have hb := pathBase_cases u.Path
  refine ⟨hc, ?_, ?_, ?_, ?_⟩
  · intro hne hlast
    rw [hc, finalSegment_eq_pathBase u.Path hne hlast]
    rfl
  · intro hex
    rw [hc, hb.2.2 hex]
    rfl
  · intro he
    rw [hc, hb.1 he]
    have e1 : percentDecode (str ".") = some (str ".") := by decide
    have e2 : toLower (str ".") = [46] := by decide
    rw [e1, Option.getD_some, e2, collapseRuns]
    simp [safeByte, collapseRuns]
    decide
  · intro hne hall
    rw [hc, hb.2.1 hne hall]
    have e1 : percentDecode (str "/") = some (str "/") := by decide
    have e2 : toLower (str "/") = [47] := by decide
    rw [e1, Option.getD_some, e2, collapseRuns]
    simp [safeByte, collapseRuns]
    decide

/-- C4 (amended), at a URL with a directory, upper case, an escape, a plus sign and a query:
the name is the final segment `My File+v2.PDF` of the parsed path, lowercased
and collapsed to `my_file_v2.pdf`. -/
theorem convertURLToSafeFilename_spec_witness :
    urlParse (str "https://ex.com/Docs/My%20File+v2.PDF?x=1")
      = some { Scheme := str "https", Host := str "ex.com",
               Path := str "/Docs/My File+v2.PDF", RawQuery := str "x=1" } ∧
    convertURLToSafeFilename (str "https://ex.com/Docs/My%20File+v2.PDF?x=1")
      = specFilename (str "/Docs/My File+v2.PDF") ∧
    convertURLToSafeFilename (str "https://ex.com/Docs/My%20File+v2.PDF?x=1")
      = str "my_file_v2.pdf" :=
  ⟨by decide,
    (convertURLToSafeFilename_spec (str "https://ex.com/Docs/My%20File+v2.PDF?x=1")
      { Scheme := str "https", Host := str "ex.com",
        Path := str "/Docs/My File+v2.PDF", RawQuery := str "x=1" } (by decide)).2.1
      (by decide) (by decide),
    by decide⟩

/-! ## Lemmas: the downloader -/

theorem FS.extends_refl (a : FS) : FS.Extends a a := fun _ _ h => h

theorem FS.extends_trans {a b c : FS} (h1 : FS.Extends a b) (h2 : FS.Extends b c) :
    FS.Extends a c := fun p d h => h2 p d (h1 p d h)

theorem FS.extends_fileExists {a b : FS} (h : FS.Extends a b) (path : GoString)
    (hp : fileExists a path = true) : fileExists b path = true := by
  unfold Scraper.fileExists at hp ⊢
  cases ha : a path with
  | none => rw [ha] at hp; simp at hp
  | some d => rw [h path d ha]; rfl

theorem FS.extends_write (fs : FS) (path data : GoString) (h : fileExists fs path = false) :
    FS.Extends fs (fs.write path data) := by
  intro q d hq
  unfold FS.write
  by_cases e : q = path
  · subst e
    unfold Scraper.fileExists at h
    rw [hq] at h
    simp at h
  · simp [e, hq]

/-- A call that finds its file returns at once: one log line, nothing else. -/
theorem downloadPDF_skip (pdfURL folder : GoString) (o : Outcome) (w : World)
    (h : fileExists w.files (outputPathOf pdfURL folder) = true) :
    downloadPDF pdfURL folder o w = w.emit (.alreadyDownloaded (outputPathOf pdfURL folder)) := by
  unfold downloadPDF
  unfold outputPathOf at h
  simp only [h, if_true]
  rfl

/-- A valid download that does not find its file writes the body. -/
theorem downloadPDF_valid (pdfURL folder : GoString) (o : Outcome) (w : World)
    (body : GoString) (hv : o.validBody = some body)
    (h : fileExists w.files (outputPathOf pdfURL folder) = false) :
    downloadPDF pdfURL folder o w =
      { files := w.files.write (outputPathOf pdfURL folder) body
        log := w.log ++ [.httpGet pdfURL,
          .downloaded body.length pdfURL (outputPathOf pdfURL folder)] } := by
  unfold Outcome.validBody at hv
  cases hf : o.fetch with
  | transportError => rw [hf] at hv; simp at hv
  | response r =>
    rw [hf] at hv
    simp only at hv
    split at hv
    · rename_i hc
      obtain ⟨h200, hct, hcopy, hbody, hcreate, hwrite⟩ := hc
      simp only [Option.some.injEq] at hv
      subst hv
      unfold downloadPDF
      unfold outputPathOf at h ⊢
      have hlen : r.body.length ≠ 0 := fun e => hbody (List.length_eq_zero.1 e)
      simp [h, hf, h200, hct, hcopy, hlen, hcreate, hwrite, World.emit]
    · simp at hv

/-- A call that does not find its file sends the request and logs one more
line, which is neither a skip nor a request; the files stay as they are or
the destination gets content. -/
theorem downloadPDF_request (pdfURL folder : GoString) (o : Outcome) (w : World)
    (h : fileExists w.files (outputPathOf pdfURL folder) = false) :
    ∃ (e : Event) (files : FS),
      downloadPDF pdfURL folder o w
        = { files := files, log := w.log ++ [.httpGet pdfURL, e] } ∧
      Event.attempt folder e = none ∧ (∀ y, e ≠ .httpGet y) ∧
      (files = w.files ∨ ∃ data, files = w.files.write (outputPathOf pdfURL folder) data) := by
  have emit2 : ∀ e : Event, (w.emit (.httpGet pdfURL)).emit e
      = { files := w.files, log := w.log ++ [.httpGet pdfURL, e] } := by
    intro e; simp [World.emit]
  unfold downloadPDF
  unfold outputPathOf at h ⊢
  rw [if_neg (by rw [h]; simp)]
  simp only
  cases o.fetch with
  | transportError => exact ⟨_, _, emit2 _, rfl, by simp, Or.inl rfl⟩
  | response r =>
    simp only
    by_cases h1 : r.StatusCode ≠ 200
    · rw [if_pos h1]; exact ⟨_, _, emit2 _, rfl, by simp, Or.inl rfl⟩
    rw [if_neg h1]
    by_cases h2 : (!stringsContains r.ContentType (str "application/pdf")) = true
    · rw [if_pos h2]; exact ⟨_, _, emit2 _, rfl, by simp, Or.inl rfl⟩
    rw [if_neg h2]
    by_cases h3 : r.copyErr = true
    · rw [if_pos h3]; exact ⟨_, _, emit2 _, rfl, by simp, Or.inl rfl⟩
    rw [if_neg h3]
    by_cases h4 : r.body.length = 0
    · rw [if_pos h4]; exact ⟨_, _, emit2 _, rfl, by simp, Or.inl rfl⟩
    rw [if_neg h4]
    by_cases h5 : o.createErr = true
    · rw [if_pos h5]; exact ⟨_, _, emit2 _, rfl, by simp, Or.inl rfl⟩
    rw [if_neg h5]
    cases o.writeErr with
    | some k =>
      refine ⟨.errorWriting pdfURL,
        w.files.write (filepathJoin folder (toLower (convertURLToSafeFilename pdfURL)))
          (r.body.take k), ?_, rfl, by simp, Or.inr ⟨_, rfl⟩⟩
      simp [World.emit]
    | none =>
      refine ⟨.downloaded r.body.length pdfURL
          (filepathJoin folder (toLower (convertURLToSafeFilename pdfURL))),
        w.files.write (filepathJoin folder (toLower (convertURLToSafeFilename pdfURL))) r.body,
        ?_, rfl, by simp, Or.inr ⟨_, rfl⟩⟩
      simp [World.emit]

/-- One call changes the files at most at its destination path, and only when
no file is there. -/
theorem downloadPDF_extends (pdfURL folder : GoString) (o : Outcome) (w : World) :
    FS.Extends w.files (downloadPDF pdfURL folder o w).files := by
  by_cases h : fileExists w.files (outputPathOf pdfURL folder) = true
  · rw [downloadPDF_skip _ _ _ _ h]
    exact FS.extends_refl _
  · have h0 : fileExists w.files (outputPathOf pdfURL folder) = false := by simpa using h
    obtain ⟨e, files, heq, -, -, hfiles⟩ := downloadPDF_request pdfURL folder o w h0
    rw [heq]
    rcases hfiles with rfl | ⟨data, rfl⟩
    · exact FS.extends_refl _
    · exact FS.extends_write _ _ _ h0

/-- One call opens exactly one attempt, for its destination path. -/
theorem downloadPDF_attempts (pdfURL folder : GoString) (o : Outcome) (w : World) :
    (downloadPDF pdfURL folder o w).log.filterMap (Event.attempt folder)
      = w.log.filterMap (Event.attempt folder) ++ [outputPathOf pdfURL folder] := by
  by_cases h : fileExists w.files (outputPathOf pdfURL folder) = true
  · rw [downloadPDF_skip _ _ _ _ h]
    simp [World.emit, Event.attempt]
  · have h0 : fileExists w.files (outputPathOf pdfURL folder) = false := by simpa using h
    obtain ⟨e, files, heq, hatt, -, -⟩ := downloadPDF_request pdfURL folder o w h0
    rw [heq]
    have e2 : [Event.httpGet pdfURL, e].filterMap (Event.attempt folder)
        = [outputPathOf pdfURL folder] := by
      rw [List.filterMap_cons_some (by rfl : Event.attempt folder (.httpGet pdfURL) = some _),
        List.filterMap_cons_none hatt]
      rfl
    simp only [List.filterMap_append, e2]

/-- A request in the log after a call was there before, or is the request of
this call, which did not find its file. -/
theorem httpGet_mem_downloadPDF (pdfURL folder : GoString) (o : Outcome) (w : World)
    (x : GoString) (hx : Event.httpGet x ∈ (downloadPDF pdfURL folder o w).log) :
    Event.httpGet x ∈ w.log ∨
      (x = pdfURL ∧ fileExists w.files (outputPathOf pdfURL folder) = false) := by
  by_cases h : fileExists w.files (outputPathOf pdfURL folder) = true
  · rw [downloadPDF_skip _ _ _ _ h] at hx
    left
    simpa [World.emit] using hx
  · have h0 : fileExists w.files (outputPathOf pdfURL folder) = false := by simpa using h
    obtain ⟨e, files, heq, -, hne, -⟩ := downloadPDF_request pdfURL folder o w h0
    rw [heq] at hx
    simp only [List.mem_append, List.mem_cons, Event.httpGet.injEq, List.mem_singleton,
      List.not_mem_nil, or_false] at hx
    rcases hx with hx | hx | hx
    · exact Or.inl hx
    · exact Or.inr ⟨hx, h0⟩
    · exact absurd hx.symm (hne x)

/-- One call leaves every path but its destination as it was. -/
theorem downloadPDF_untouched (pdfURL folder : GoString) (o : Outcome) (w : World)
    (path : GoString) (hp : outputPathOf pdfURL folder ≠ path) :
    (downloadPDF pdfURL folder o w).files path = w.files path := by
  by_cases h : fileExists w.files (outputPathOf pdfURL folder) = true
  · rw [downloadPDF_skip _ _ _ _ h]
    rfl
  · have h0 : fileExists w.files (outputPathOf pdfURL folder) = false := by simpa using h
    obtain ⟨e, files, heq, -, -, hfiles⟩ := downloadPDF_request pdfURL folder o w h0
    rw [heq]
    rcases hfiles with rfl | ⟨data, rfl⟩
    · rfl
    · simp [FS.write, Ne.symm hp]

/-- After a valid call the destination holds a file. -/
theorem downloadPDF_valid_exists (pdfURL folder : GoString) (o : Outcome) (w : World)
    (body : GoString) (hv : o.validBody = some body) :
    fileExists (downloadPDF pdfURL folder o w).files (outputPathOf pdfURL folder) = true := by
  by_cases h : fileExists w.files (outputPathOf pdfURL folder) = true
  · exact FS.extends_fileExists (downloadPDF_extends pdfURL folder o w) _ h
  · have h0 : fileExists w.files (outputPathOf pdfURL folder) = false := by simpa using h
    rw [downloadPDF_valid _ _ _ _ body hv h0]
    simp [fileExists, FS.write]

theorem downloadAll_extends (folder : GoString) (env : Nat → Outcome) (links : List GoString) :
    ∀ (k : Nat) (w : World), FS.Extends w.files (downloadAll folder env k links w).files := by
  induction links with
  | nil => intro k w; exact FS.extends_refl _
  | cons u us ih =>
    intro k w
    rw [downloadAll]
    exact FS.extends_trans (downloadPDF_extends u folder (env k) w) (ih _ _)

theorem downloadAll_attempts (folder : GoString) (env : Nat → Outcome)
    (links : List GoString) : ∀ (k : Nat) (w : World),
    (downloadAll folder env k links w).log.filterMap (Event.attempt folder)
      = w.log.filterMap (Event.attempt folder) ++ links.map (outputPathOf · folder) := by
  induction links with
  | nil => intro k w; simp [downloadAll]
  | cons u us ih =>
    intro k w
    rw [downloadAll, ih, downloadPDF_attempts]
    simp

theorem downloadAll_log_mono (folder : GoString) (env : Nat → Outcome)
    (links : List GoString) : ∀ (k : Nat) (w : World) (e : Event),
    e ∈ w.log → e ∈ (downloadAll folder env k links w).log := by
  induction links with
  | nil => intro k w e he; exact he
  | cons u us ih =>
    intro k w e he
    rw [downloadAll]
    apply ih
    by_cases h : fileExists w.files (outputPathOf u folder) = true
    · rw [downloadPDF_skip _ _ _ _ h]
      simp [World.emit, he]
    · have h0 : fileExists w.files (outputPathOf u folder) = false := by simpa using h
      obtain ⟨e1, files, heq, -, -, -⟩ := downloadPDF_request u folder (env k) w h0
      rw [heq]
      simp [he]

/-- Every request of the loop is for a link whose file was missing when the
loop started. -/
theorem downloadAll_httpGet (folder : GoString) (env : Nat → Outcome)
    (links : List GoString) : ∀ (k : Nat) (w : World) (x : GoString),
    Event.httpGet x ∈ (downloadAll folder env k links w).log →
    Event.httpGet x ∈ w.log ∨ fileExists w.files (outputPathOf x folder) = false := by
  induction links with
  | nil => intro k w x hx; exact Or.inl hx
  | cons u us ih =>
    intro k w x hx
    rw [downloadAll] at hx
    rcases ih _ _ x hx with h | h
    · rcases httpGet_mem_downloadPDF u folder (env k) w x h with h1 | ⟨rfl, h1⟩
      · exact Or.inl h1
      · exact Or.inr h1
    · right
      cases hfe : fileExists w.files (outputPathOf x folder) with
      | false => rfl
      | true =>
        have := FS.extends_fileExists (downloadPDF_extends u folder (env k) w) _ hfe
        rw [this] at h
        exact absurd h (by simp)

/-- Every link whose file is there when the loop starts is skipped with a log
line. -/
theorem downloadAll_skips (folder : GoString) (env : Nat → Outcome)
    (links : List GoString) : ∀ (k : Nat) (w : World) (u : GoString), u ∈ links →
    fileExists w.files (outputPathOf u folder) = true →
    Event.alreadyDownloaded (outputPathOf u folder) ∈ (downloadAll folder env k links w).log := by
  induction links with
  | nil => intro k w u hu; simp at hu
  | cons v vs ih =>
    intro k w u hu hfe
    rw [downloadAll]
    rcases List.mem_cons.1 hu with rfl | hu
    · apply downloadAll_log_mono
      rw [downloadPDF_skip _ _ _ _ hfe]
      simp [World.emit]
    · exact ih _ _ u hu (FS.extends_fileExists (downloadPDF_extends v folder (env k) w) _ hfe)

theorem downloadAll_untouched (folder : GoString) (env : Nat → Outcome)
    (links : List GoString) (path : GoString) : ∀ (k : Nat) (w : World),
    (∀ u ∈ links, outputPathOf u folder ≠ path) →
    (downloadAll folder env k links w).files path = w.files path := by
  induction links with
  | nil => intro k w _; rfl
  | cons u us ih =>
    intro k w h
    rw [downloadAll, ih _ _ (fun v hv => h v (List.mem_cons_of_mem _ hv)),
      downloadPDF_untouched _ _ _ _ _ (h u (List.mem_cons_self _ _))]

/-- A link with a valid outcome has its file when the loop ends, whatever
happens to the links before and after it; the file holds the body of that
link when nothing was there at the start and no earlier link has the same
destination. -/
theorem downloadAll_valid (folder : GoString) (env : Nat → Outcome)
    (links : List GoString) : ∀ (k : Nat) (w : World) (j : Nat) (hj : j < links.length)
    (body : GoString), (env (k + j)).validBody = some body →
    fileExists (downloadAll folder env k links w).files (outputPathOf links[j] folder) = true ∧
    (fileExists w.files (outputPathOf links[j] folder) = false →
      (∀ (j1 : Nat) (h1 : j1 < j),
        outputPathOf links[j1] folder ≠ outputPathOf links[j] folder) →
      (downloadAll folder env k links w).files (outputPathOf links[j] folder) = some body) := by
  induction links with
  | nil => intro k w j hj; simp at hj
  | cons u us ih =>
    intro k w j hj body hv
    rw [downloadAll]
    cases j with
    | zero =>
      simp only [List.getElem_cons_zero]
      rw [Nat.add_zero] at hv
      have hex := downloadPDF_valid_exists u folder (env k) w body hv
      have hext := downloadAll_extends folder env us (k + 1) (downloadPDF u folder (env k) w)
      refine ⟨FS.extends_fileExists hext _ hex, ?_⟩
      intro h0 _
      apply hext
      rw [downloadPDF_valid _ _ _ _ body hv h0]
      simp [FS.write]
    | succ j =>
      simp only [List.getElem_cons_succ]
      have hj2 : j < us.length := by simpa using hj
      have hv2 : (env (k + 1 + j)).validBody = some body := by
        rw [show k + 1 + j = k + (j + 1) by omega]; exact hv
      obtain ⟨h1, h2⟩ := ih (k + 1) (downloadPDF u folder (env k) w) j hj2 body hv2
      refine ⟨h1, ?_⟩
      intro h0 hfirst
      apply h2
      · have hne : outputPathOf u folder ≠ outputPathOf us[j] folder := by
          have := hfirst 0 (Nat.succ_pos _)
          simpa using this
        unfold fileExists at h0 ⊢
        rw [downloadPDF_untouched _ _ _ _ _ hne]
        exact h0
      · intro j1 hj1
        have := hfirst (j1 + 1) (Nat.succ_lt_succ hj1)
        simpa using this

/-! ## The downloader: the claims -/

/-- C2 (as stated, refuted): in the scenario of the claim (the page yields the one link, its
name is `a.pdf`, no file exists, the response has status 200, content type
`application/pdf` and a non-empty body), `downloadPDF` sends the request and
creates no file at all when `os.Create` fails, and leaves a file with only
part of the body when the write fails. -/
theorem end_to_end_write_failure :
    extractPDFLinks scenarioPage = [scenarioURL] ∧
    convertURLToSafeFilename scenarioURL = str "a.pdf" ∧
    (downloadPDF scenarioURL (str "PDFs/")
      { pdfResponse (str "%PDF-1.7") with createErr := true } ⟨FS.empty, []⟩).files
        = FS.empty ∧
    (downloadPDF scenarioURL (str "PDFs/")
      { pdfResponse (str "%PDF-1.7") with createErr := true } ⟨FS.empty, []⟩).log
        = [.httpGet scenarioURL, .errorCreating scenarioURL] ∧
    (downloadPDF scenarioURL (str "PDFs/")
      { pdfResponse (str "%PDF-1.7") with writeErr := some 4 } ⟨FS.empty, []⟩).files
        (str "PDFs/a.pdf") = some (str "%PDF") := by
  refine ⟨by decide, by decide, rfl, by decide, by decide⟩

/-- C2 (amended): the page of the scenario yields the one link `https://ex.com/a.pdf`, whose
name is `a.pdf`; and `downloadPDF` of that link into `PDFs/`, with no file
`PDFs/a.pdf` present, a response with status 200, content type
`application/pdf` and a non-empty body, and `os.Create` and the write both
succeeding, creates exactly one file, `PDFs/a.pdf`, holding that body: every
other path is as before. -/
theorem end_to_end_scenario (w : World) (o : Outcome) (body : GoString)
    (hfile : fileExists w.files (str "PDFs/a.pdf") = false)
    (hresp : o.fetch = .response
      { StatusCode := 200, ContentType := str "application/pdf", body := body, copyErr := false })
    (hbody : body ≠ []) (hcreate : o.createErr = false) (hwrite : o.writeErr = none) :
    extractPDFLinks scenarioPage = [scenarioURL] ∧
    convertURLToSafeFilename scenarioURL = str "a.pdf" ∧
    (downloadPDF scenarioURL (str "PDFs/") o w).files = w.files.write (str "PDFs/a.pdf") body ∧
    (downloadPDF scenarioURL (str "PDFs/") o w).files (str "PDFs/a.pdf") = some body ∧
    (∀ path, path ≠ str "PDFs/a.pdf" →
      (downloadPDF scenarioURL (str "PDFs/") o w).files path = w.files path) ∧
    (downloadPDF scenarioURL (str "PDFs/") o w).log = w.log ++
      [.httpGet scenarioURL, .downloaded body.length scenarioURL (str "PDFs/a.pdf")] := by
  have hpath : outputPathOf scenarioURL (str "PDFs/") = str "PDFs/a.pdf" := by decide
  have hv : o.validBody = some body := by
    unfold Outcome.validBody
    rw [hresp]
    have hct : stringsContains (str "application/pdf") (str "application/pdf") = true := by
      decide
    simp [hct, hbody, hcreate, hwrite]
  have hd := downloadPDF_valid scenarioURL (str "PDFs/") o w body hv (by rw [hpath]; exact hfile)
  rw [hpath] at hd
  refine ⟨by decide, by decide, ?_, ?_, ?_, ?_⟩
  · rw [hd]
  · rw [hd]; simp [FS.write]
  · intro path hp
    rw [hd]
    simp [FS.write, hp]
  · rw [hd]

/-- C2 (amended), at the empty filesystem and the body `%PDF-1.7`. -/
theorem end_to_end_scenario_witness :
    fileExists FS.empty (str "PDFs/a.pdf") = false ∧
    (downloadPDF scenarioURL (str "PDFs/") (pdfResponse (str "%PDF-1.7")) ⟨FS.empty, []⟩).files
      = FS.empty.write (str "PDFs/a.pdf") (str "%PDF-1.7") ∧
    (downloadPDF scenarioURL (str "PDFs/") (pdfResponse (str "%PDF-1.7")) ⟨FS.empty, []⟩).log
      = [.httpGet scenarioURL, .downloaded 8 scenarioURL (str "PDFs/a.pdf")] :=
  have h := end_to_end_scenario ⟨FS.empty, []⟩ (pdfResponse (str "%PDF-1.7")) (str "%PDF-1.7")
    (by decide) rfl (by decide) rfl rfl
  ⟨by decide, h.2.2.1, h.2.2.2.2.2⟩

/-- C5: when the fetch ends in a transport error, a status other than 200, a content type
that does not contain `application/pdf`, or an empty body, `downloadPDF`
leaves the files as they are: none is created, none is modified. -/
theorem downloadPDF_failure_keeps_files (pdfURL folder : GoString) (o : Outcome) (w : World)
    (h : o.fetch = .transportError ∨ ∃ r, o.fetch = .response r ∧
      (r.StatusCode ≠ 200 ∨ stringsContains r.ContentType (str "application/pdf") = false
        ∨ r.body = [])) :
    (downloadPDF pdfURL folder o w).files = w.files := by
  by_cases hf : fileExists w.files (outputPathOf pdfURL folder) = true
  · rw [downloadPDF_skip _ _ _ _ hf]
    rfl
  · unfold downloadPDF
    unfold outputPathOf at hf
    rw [if_neg hf]
    rcases h with h | ⟨r, h, hr⟩
    · rw [h]; rfl
    · rw [h]
      simp only
      by_cases h1 : r.StatusCode ≠ 200
      · rw [if_pos h1]; rfl
      rw [if_neg h1]
      by_cases h2 : (!stringsContains r.ContentType (str "application/pdf")) = true
      · rw [if_pos h2]; rfl
      rw [if_neg h2]
      by_cases h3 : r.copyErr = true
      · rw [if_pos h3]; rfl
      rw [if_neg h3]
      by_cases h4 : r.body.length = 0
      · rw [if_pos h4]; rfl
      exfalso
      rcases hr with hr | hr | hr
      · exact h1 hr
      · rw [hr] at h2; exact h2 rfl
      · rw [hr] at h4; exact h4 rfl

/-- C5, at a 404 answer, with an older file in the folder. -/
theorem downloadPDF_failure_keeps_files_witness :
    (downloadPDF (str "https://ex.com/b.pdf") (str "PDFs/") (htmlResponse 404)
      ⟨FS.empty.write (str "PDFs/a.pdf") (str "%PDF-1.7"), []⟩).files
      = FS.empty.write (str "PDFs/a.pdf") (str "%PDF-1.7") :=
  downloadPDF_failure_keeps_files (str "https://ex.com/b.pdf") (str "PDFs/") (htmlResponse 404)
    ⟨FS.empty.write (str "PDFs/a.pdf") (str "%PDF-1.7"), []⟩
    (Or.inr ⟨_, rfl, Or.inl (by decide)⟩)

/-- C6: after one run of the download loop, a second run over the same links and folder,
whatever the network and the filesystem answer, sends no request for a link
whose file exists after the first run and logs the skip instead; it leaves
every file that exists after the first run with its content; and a single
call that finds a file at its destination returns with one log line and
nothing else. -/
theorem second_run_skips_downloaded (links : List GoString) (folder : GoString)
    (env1 env2 : Nat → Outcome) (w0 : World) :
    (∀ u ∈ links,
      fileExists (downloadAll folder env1 0 links w0).files (outputPathOf u folder) = true →
      Event.httpGet u ∉
        (downloadAll folder env2 0 links ⟨(downloadAll folder env1 0 links w0).files, []⟩).log ∧
      Event.alreadyDownloaded (outputPathOf u folder) ∈
        (downloadAll folder env2 0 links ⟨(downloadAll folder env1 0 links w0).files, []⟩).log) ∧
    (∀ path data, (downloadAll folder env1 0 links w0).files path = some data →
      (downloadAll folder env2 0 links ⟨(downloadAll folder env1 0 links w0).files, []⟩).files path
        = some data) ∧
    (∀ (u : GoString) (o : Outcome) (w : World),
      fileExists w.files (outputPathOf u folder) = true →
      downloadPDF u folder o w = ⟨w.files, w.log ++ [.alreadyDownloaded (outputPathOf u folder)]⟩)
    := by
  refine ⟨?_, ?_, ?_⟩
  · intro u hu hfe
    refine ⟨?_, downloadAll_skips folder env2 links 0 _ u hu hfe⟩
    intro hget
    rcases downloadAll_httpGet folder env2 links 0 _ u hget with h | h
    · simp at h
    · rw [hfe] at h
      exact absurd h (by simp)
  · exact fun path data h => downloadAll_extends folder env2 links 0 ⟨_, []⟩ path data h
  · intro u o w h
    rw [downloadPDF_skip u folder o w h]
    rfl

/-- C6, for two links downloaded in a first run into an empty filesystem: a second run,
in which every response would be a 404 page, sends no request for the first
link and logs the skip. -/
theorem second_run_skips_downloaded_witness :
    Event.httpGet (str "https://ex.com/a.pdf") ∉
      (downloadAll (str "PDFs/") htmlResponse_404 0
        [str "https://ex.com/a.pdf", str "https://ex.com/b.pdf"]
        ⟨(downloadAll (str "PDFs/") (fun _ => pdfResponse (str "%PDF-1.7")) 0
          [str "https://ex.com/a.pdf", str "https://ex.com/b.pdf"] ⟨FS.empty, []⟩).files, []⟩).log ∧
    Event.alreadyDownloaded (outputPathOf (str "https://ex.com/a.pdf") (str "PDFs/")) ∈
      (downloadAll (str "PDFs/") htmlResponse_404 0
        [str "https://ex.com/a.pdf", str "https://ex.com/b.pdf"]
        ⟨(downloadAll (str "PDFs/") (fun _ => pdfResponse (str "%PDF-1.7")) 0
          [str "https://ex.com/a.pdf", str "https://ex.com/b.pdf"] ⟨FS.empty, []⟩).files, []⟩).log :=
  (second_run_skips_downloaded [str "https://ex.com/a.pdf", str "https://ex.com/b.pdf"]
    (str "PDFs/") (fun _ => pdfResponse (str "%PDF-1.7")) htmlResponse_404 ⟨FS.empty, []⟩).1
    (str "https://ex.com/a.pdf") (by decide) (by decide)

/-- C8 (as stated, refuted): the two links that differ only in the host get the same name, and
both responses are valid (status 200, content type `application/pdf`,
non-empty body). When `os.Create` fails in the first call, the second call is
not skipped: it sends its request and the file holds the second body. When
the write fails in the first call, the second call is skipped and the file
holds only part of the first body. -/
theorem filename_collision_first_write_fails :
    convertURLToSafeFilename (str "https://ex.com/a.pdf")
      = convertURLToSafeFilename (str "https://other.org/a.pdf") ∧
    (downloadPDF (str "https://other.org/a.pdf") (str "PDFs/") (pdfResponse (str "second"))
      (downloadPDF (str "https://ex.com/a.pdf") (str "PDFs/")
        { pdfResponse (str "first") with createErr := true } ⟨FS.empty, []⟩)).log
      = [.httpGet (str "https://ex.com/a.pdf"), .errorCreating (str "https://ex.com/a.pdf"),
          .httpGet (str "https://other.org/a.pdf"),
          .downloaded 6 (str "https://other.org/a.pdf") (str "PDFs/a.pdf")] ∧
    (downloadPDF (str "https://other.org/a.pdf") (str "PDFs/") (pdfResponse (str "second"))
      (downloadPDF (str "https://ex.com/a.pdf") (str "PDFs/")
        { pdfResponse (str "first") with createErr := true } ⟨FS.empty, []⟩)).files
        (str "PDFs/a.pdf") = some (str "second") ∧
    (downloadPDF (str "https://other.org/a.pdf") (str "PDFs/") (pdfResponse (str "second"))
      (downloadPDF (str "https://ex.com/a.pdf") (str "PDFs/")
        { pdfResponse (str "first") with writeErr := some 2 } ⟨FS.empty, []⟩)).files
        (str "PDFs/a.pdf") = some (str "fi") := by
  refine ⟨by decide, by decide, by decide, by decide⟩

/-- C8 (amended): two links that differ only in the host, and two that differ only in the
query, are distinct, are all extracted from one page, and get the same name
`a.pdf`; and for any two links with the same name, downloaded one after the
other into a folder without files, the first with a valid response (status
200, content type with `application/pdf`, a body read without error and not
empty) and with `os.Create` and the write both succeeding, the second call
is skipped as already downloaded whatever its response would be: one
request, and one file, holding the first body. -/
theorem filename_collision_skips (folder : GoString) (o1 o2 : Outcome) (body1 : GoString)
    (h1 : o1.validBody = some body1) :
    str "https://ex.com/a.pdf" ≠ str "https://other.org/a.pdf" ∧
    str "https://ex.com/a.pdf" ≠ str "https://ex.com/a.pdf?v=2" ∧
    extractPDFLinks
      (str "https://ex.com/a.pdf https://other.org/a.pdf https://ex.com/a.pdf?v=2")
      = [str "https://ex.com/a.pdf", str "https://other.org/a.pdf",
          str "https://ex.com/a.pdf?v=2"] ∧
    convertURLToSafeFilename (str "https://ex.com/a.pdf") = str "a.pdf" ∧
    convertURLToSafeFilename (str "https://other.org/a.pdf") = str "a.pdf" ∧
    convertURLToSafeFilename (str "https://ex.com/a.pdf?v=2") = str "a.pdf" ∧
    (∀ url1 url2 : GoString,
      convertURLToSafeFilename url1 = convertURLToSafeFilename url2 →
      downloadPDF url2 folder o2 (downloadPDF url1 folder o1 ⟨FS.empty, []⟩)
        = ⟨FS.empty.write (outputPathOf url1 folder) body1,
            [.httpGet url1, .downloaded body1.length url1 (outputPathOf url1 folder),
              .alreadyDownloaded (outputPathOf url1 folder)]⟩) := by
  refine ⟨by decide, by decide, by decide, by decide, by decide, by decide, ?_⟩
  intro url1 url2 hname
  have hp : outputPathOf url2 folder = outputPathOf url1 folder := by
    unfold outputPathOf
    rw [hname]
  have hfirst := downloadPDF_valid url1 folder o1 ⟨FS.empty, []⟩ body1 h1 (by rfl)
  rw [hfirst, downloadPDF_skip url2 folder o2 _ (by rw [hp]; simp [fileExists, FS.write]), hp]
  simp [World.emit]

/-- C8 (amended), for the two links that differ in the host, in the folder `PDFs/`: one file,
`PDFs/a.pdf`, with the first body, and no request for the second link. -/
theorem filename_collision_skips_witness :
    (pdfResponse (str "first")).validBody = some (str "first") ∧
    downloadPDF (str "https://other.org/a.pdf") (str "PDFs/") (pdfResponse (str "second"))
      (downloadPDF (str "https://ex.com/a.pdf") (str "PDFs/") (pdfResponse (str "first"))
        ⟨FS.empty, []⟩)
      = ⟨FS.empty.write (outputPathOf (str "https://ex.com/a.pdf") (str "PDFs/")) (str "first"),
          [.httpGet (str "https://ex.com/a.pdf"),
            .downloaded (str "first").length (str "https://ex.com/a.pdf")
              (outputPathOf (str "https://ex.com/a.pdf") (str "PDFs/")),
            .alreadyDownloaded (outputPathOf (str "https://ex.com/a.pdf") (str "PDFs/"))]⟩ :=
  ⟨by decide,
    (filename_collision_skips (str "PDFs/") (pdfResponse (str "first"))
      (pdfResponse (str "second")) (str "first") (by decide)).2.2.2.2.2.2
      (str "https://ex.com/a.pdf") (str "https://other.org/a.pdf") (by decide)⟩

/-- C9: the loop of `main` attempts every link, in list order (the attempts its log opens
are the destinations of the links, one each, in that order); and a link whose
outcome is valid (status 200, content type with `application/pdf`, non-empty
body, successful write) and whose destination held no file beforehand has a
file there when the loop ends, whatever happens to the links before and after
it; that file holds the body of the link when no earlier link has the same
destination. -/
theorem downloadAll_partial_failure (folder : GoString) (env : Nat → Outcome)
    (links : List GoString) (w0 : World) (i : Nat) (hi : i < links.length) (body : GoString)
    (hv : (env i).validBody = some body)
    (h0 : fileExists w0.files (outputPathOf links[i] folder) = false) :
    (downloadAll folder env 0 links w0).log.filterMap (Event.attempt folder)
      = w0.log.filterMap (Event.attempt folder) ++ links.map (outputPathOf · folder) ∧
    fileExists (downloadAll folder env 0 links w0).files (outputPathOf links[i] folder) = true ∧
    ((∀ (j : Nat) (h : j < i), outputPathOf links[j] folder ≠ outputPathOf links[i] folder) →
      (downloadAll folder env 0 links w0).files (outputPathOf links[i] folder) = some body) := by
  have hv0 : (env (0 + i)).validBody = some body := by rw [Nat.zero_add]; exact hv
  obtain ⟨h1, h2⟩ := downloadAll_valid folder env links 0 w0 i hi body hv0
  exact ⟨downloadAll_attempts folder env links 0 w0, h1, h2 h0⟩

/-- C9, for three links of which the first meets no connection and the third a 404
page: the second, with a valid response, has its file at the end. -/
theorem downloadAll_partial_failure_witness :
    (mixedOutcomes 1).validBody = some (str "%PDF-1.7") ∧
    (downloadAll (str "PDFs/") mixedOutcomes 0
      [str "https://ex.com/a.pdf", str "https://ex.com/b.pdf", str "https://ex.com/c.pdf"]
      ⟨FS.empty, []⟩).files (str "PDFs/b.pdf") = some (str "%PDF-1.7") ∧
    (downloadAll (str "PDFs/") mixedOutcomes 0
      [str "https://ex.com/a.pdf", str "https://ex.com/b.pdf", str "https://ex.com/c.pdf"]
      ⟨FS.empty, []⟩).log.filterMap (Event.attempt (str "PDFs/"))
      = [str "PDFs/a.pdf", str "PDFs/b.pdf", str "PDFs/c.pdf"] := by
  have h := downloadAll_partial_failure (str "PDFs/") mixedOutcomes
    [str "https://ex.com/a.pdf", str "https://ex.com/b.pdf", str "https://ex.com/c.pdf"]
    ⟨FS.empty, []⟩ 1 (by decide) (str "%PDF-1.7") (by decide) (by decide)
  have hb : outputPathOf (str "https://ex.com/b.pdf") (str "PDFs/") = str "PDFs/b.pdf" := by
    decide
  have hne : outputPathOf (str "https://ex.com/a.pdf") (str "PDFs/")
      ≠ outputPathOf (str "https://ex.com/b.pdf") (str "PDFs/") := by decide
  have hm : [str "https://ex.com/a.pdf", str "https://ex.com/b.pdf",
      str "https://ex.com/c.pdf"].map (outputPathOf · (str "PDFs/"))
      = [str "PDFs/a.pdf", str "PDFs/b.pdf", str "PDFs/c.pdf"] := by decide
  refine ⟨by decide, ?_, ?_⟩
  · rw [← hb]
    apply h.2.2
    intro j hj
    have hj0 : j = 0 := by omega
    subst hj0
    exact hne
  · rw [← hm]
    exact h.1

end Scraper
